import Mathlib

/-!
Verification of the `tree` directory-listing program (traversal-and-rendering
engine, sort policy, entry filter, listing parser) against its specification.

The Rust source is embedded shallowly:
* machine integers (`u64`, `u32`, `usize`) become `Nat` (no overflow is
  reachable in the modelled code paths);
* `io::Result` becomes `Except String`; an `fs::read_dir` failure is the only
  modelled I/O failure (metadata is carried on the entry records, matching the
  fields the code reads);
* the mutable `stats : (u64, u64)` accumulator threaded by `&mut` becomes an
  explicit returned pair, and the `Write` sink becomes an accumulated list of
  emitted lines;
* glob patterns (`glob::Pattern`, an external crate) are embedded as abstract
  predicates `String → Bool`; the claims under study depend only on *where*
  the pattern is consulted, never on glob semantics;
* `Vec::sort_by` (a stable sort) is embedded as `List.insertionSort`, which is
  also stable, with the same comparator; a stable sort is uniquely determined
  by its comparator, so the two agree as functions;
* the filesystem is a function from a path (list of segments below the root)
  to `Option` of the raw directory entries, `none` meaning the directory
  cannot be read; recursion is fuelled, the fuel only needs to exceed the
  depth of the walk.

Options not exercised by any claim (colorization, permission strings,
modification-date rendering, output-file plumbing) are omitted from the
embedded option record; every branch of the embedded functions is translated
from the corresponding branch of the source.
-/

namespace RustTree

/-- The option record (`TreeOptions`, `src/rust_tree/options.rs`), restricted
to the fields the embedded code paths read. `pattern_glob` is the include
glob (`-P`), `exclude_pattern` the exclude glob (`-I`), both embedded as
abstract match predicates. -/
structure TreeOptions where
  all_files : Bool := false
  level : Option Nat := none
  full_path : Bool := false
  dir_only : Bool := false
  no_indent : Bool := false
  print_size : Bool := false
  human_readable : Bool := false
  pattern_glob : Option (String → Bool) := none
  exclude_pattern : Option (String → Bool) := none
  ascii : Bool := false
  sort_by_time : Bool := false
  reverse : Bool := false
  file_limit : Option Nat := none
  dirs_first : Bool := false
  classify : Bool := false
  no_report : Bool := false

/-- A raw filesystem directory entry as the traversal consumes it:
`fs::DirEntry` together with the metadata the code fetches from it.
`mtime` is `none` when the modification-time fetch fails (the code keeps the
entry and treats the time as `UNIX_EPOCH` while sorting); `exec` models the
Unix executable permission bit consulted by `--classify`. -/
structure RawEntry where
  name : String
  isDir : Bool
  mtime : Option Nat := none
  size : Nat := 0
  exec : Bool := false
deriving DecidableEq, Repr

/-- A parsed virtual entry (`FileEntry`, `src/rust_tree/fromfile.rs`). -/
structure FileEntry where
  path : String
  is_dir : Bool
  size : Option Nat := none
deriving DecidableEq, Repr

/-! ### Comparators (Sort Policy, §4.4; `traverse_directory` step 2) -/

/-- `Ord::cmp` on `Nat`, as Rust computes it on `SystemTime`. -/
def natCmp (a b : Nat) : Ordering :=
  if a < b then .lt else if a = b then .eq else .gt

/-- `Ord::cmp` on `char`/scalar values. -/
def charCmp (a b : Char) : Ordering :=
  if a < b then .lt else if a = b then .eq else .gt

/-- Lexicographic comparison of character lists. -/
def listCmp : List Char → List Char → Ordering
  | [], [] => .eq
  | [], _ :: _ => .lt
  | _ :: _, [] => .gt
  | a :: xs, b :: ys => (charCmp a b).then (listCmp xs ys)

/-- `Ord::cmp` on file names (`OsString::cmp`): lexicographic byte order.
On valid UTF-8 the byte order agrees with the lexicographic order of the
scalar-value sequence, which is `listCmp` on `String.data`. -/
def strCmp (a b : String) : Ordering :=
  listCmp a.data b.data

/-- The `sort_comparison` closure of `traverse_directory`: modification time
(missing times sort as `UNIX_EPOCH`, i.e. `0`) then name under
`sort_by_time`, plain name order otherwise. -/
def cmpEntries (o : TreeOptions) (a b : RawEntry) : Ordering :=
  if o.sort_by_time then
    (natCmp (a.mtime.getD 0) (b.mtime.getD 0)).then (strCmp a.name b.name)
  else
    strCmp a.name b.name

/-- The non-strict order fed to the stable sort: `a` may stay before `b`
exactly when the comparator does not say `Greater`. -/
def leE (o : TreeOptions) (a b : RawEntry) : Prop := cmpEntries o a b ≠ .gt

instance (o : TreeOptions) : DecidableRel (leE o) := fun a b => by
  unfold leE; infer_instance

/-- Sibling sorting of `traverse_directory` (`src/rust_tree/traversal.rs`
lines 298–354): with `dirs_first`, partition into directories and files,
sort each partition with the comparator, reverse each partition when
`reverse` is set, and concatenate directories before files; otherwise sort
the whole list and reverse it when `reverse` is set. -/
def sortEntries (o : TreeOptions) (l : List RawEntry) : List RawEntry :=
  if o.dirs_first then
    let dirs := (l.filter (fun e => e.isDir)).insertionSort (leE o)
    let files := (l.filter (fun e => !e.isDir)).insertionSort (leE o)
    let dirs := if o.reverse then dirs.reverse else dirs
    let files := if o.reverse then files.reverse else files
    dirs ++ files
  else
    let sorted := l.insertionSort (leE o)
    if o.reverse then sorted.reverse else sorted

/-! ### Entry Filter (§4.1; `should_skip_entry`, `should_skip_virtual_entry`) -/

/-- `name.starts_with('.')`, computed on the character list so that concrete
instances evaluate inside the kernel. -/
def startsWithDot (s : String) : Bool :=
  match s.data with
  | [] => false
  | c :: _ => c == '.'

/-- `should_skip_entry` (`src/rust_tree/traversal.rs` lines 86–120), the
real-filesystem filter: hidden check, then exclude glob, then include glob
(files only — a directory is exempt), then `--directories` type check. -/
def shouldSkipEntry (e : RawEntry) (o : TreeOptions) : Bool :=
  let isHidden := startsWithDot e.name
  if !o.all_files && isHidden then true
  else if (match o.exclude_pattern with
           | some p => p e.name
           | none => false) then true
  else if (match o.pattern_glob with
           | some p => !e.isDir && !p e.name
           | none => false) then true
  else if o.dir_only && !e.isDir then true
  else false

/-- The file-name of a virtual path: the text after the last `/`
(`entry.path.rfind('/')` followed by slicing), the whole path when there is
no slash. -/
def fileNameOf (path : String) : String :=
  String.mk ((path.data.reverse.takeWhile (fun c => c != '/')).reverse)

/-- `should_skip_virtual_entry` (`src/rust_tree/traversal.rs` lines
776–809), the virtual-mode filter: same rule order, but the include glob is
tested against every entry — there is no directory exemption in this
function. -/
def shouldSkipVirtualEntry (e : FileEntry) (o : TreeOptions) : Bool :=
  let filename := fileNameOf e.path
  if !o.all_files && startsWithDot filename then true
  else if (match o.exclude_pattern with
           | some p => p filename
           | none => false) then true
  else if (match o.pattern_glob with
           | some p => !p filename
           | none => false) then true
  else if o.dir_only && !e.is_dir then true
  else false

/-! ### Human-readable sizes (`bytes_to_human_readable`, `src/rust_tree/utils.rs`) -/

/-- The unit table `UNITS`. -/
def unitName : Nat → String
  | 0 => "B"
  | 1 => "KB"
  | 2 => "MB"
  | 3 => "GB"
  | _ => "TB"

/-- `{:.1}` formatting of the exact value `num / den`: round to the nearest
tenth, ties to even, as Rust's float `Display` does (the intermediate `f64`
`bytes / 1024^i` is exact for `bytes < 2^53`, so the decimal rounding is the
only rounding). Also used below as the round-to-nearest-even step of the
`u64 → f64` cast, where the quotient's parity is the mantissa's last bit.
Returns the rounded quotient. -/
def roundHalfEven (num den : Nat) : Nat :=
  let q := num / den
  let r := num % den
  if 2 * r < den then q
  else if den < 2 * r then q + 1
  else if q % 2 = 0 then q else q + 1

/-- The unit exponent `i = (bytes as f64).log(1024.0).floor()` of the
source, written out as the case split the float computation realizes. The
computed quotient `ln(bytes) / ln(1024)` is monotone in `bytes` (both
correctly rounded steps are monotone), and it is exactly `k` at the lower
boundaries `1024^k`: for `k = 1, 2, 4` because `ln(2^(10k))` is the exact
`2^j`-scaling of `ln(2^10)` (rounding commutes with scaling by powers of
two), and for `k = 3, 4` as pinned by the repo's `utils_unit_tests.rs`
(`"1.0 GB"`, `"1.0 TB"`). Just below a boundary the true quotient sits
`d / (1024^k · ln 1024)` under `k`; for `k ≤ 4` that distance at `d = 1`
already exceeds the rounding error by two orders of magnitude, so the case
split is exact there. At the top boundary, however,
`d / (1024^5 · ln 1024) ≈ d · 1.28·10⁻¹⁶` is below the half-ulp
`4.44·10⁻¹⁶` of `5.0` for `d ≤ 3` and above it for `d ≥ 4`: the quotient
rounds up to `5.0` three units early, so the exponent reaches the
out-of-range index `5` already at `1024^5 - 3`. The source clamps index 5
back to `0` (raw bytes); the clamp is applied by `bytesToHumanReadable`
below. -/
def unitIndex (bytes : Nat) : Nat :=
  if bytes < 1024 then 0
  else if bytes < 1024 ^ 2 then 1
  else if bytes < 1024 ^ 3 then 2
  else if bytes < 1024 ^ 4 then 3
  else if bytes < 1024 ^ 5 - 3 then 4
  else 5

/-- The `"{:.1}"` rendering of `bytes / 1024^i`. -/
def oneDecimal (bytes i : Nat) : String :=
  let t := roundHalfEven (10 * bytes) (1024 ^ i)
  toString (t / 10) ++ "." ++ toString (t % 10)

/-- The `u64 → f64` cast of `bytes as f64`: the identity up to `2^53`,
round-to-nearest-even at 53-bit precision beyond (the exponent case split
covers the `u64` range, bit lengths 54–64). -/
def roundTo53 (n : Nat) : Nat :=
  if n ≤ 2 ^ 53 then n
  else
    let e :=
      if n < 2 ^ 54 then 1 else if n < 2 ^ 55 then 2
      else if n < 2 ^ 56 then 3 else if n < 2 ^ 57 then 4
      else if n < 2 ^ 58 then 5 else if n < 2 ^ 59 then 6
      else if n < 2 ^ 60 then 7 else if n < 2 ^ 61 then 8
      else if n < 2 ^ 62 then 9 else if n < 2 ^ 63 then 10
      else 11
    roundHalfEven n (2 ^ e) * 2 ^ e

/-- `bytes_to_human_readable` (`src/rust_tree/utils.rs` lines 4–25). In the
byte branch the source computes `size as u64` where `size` is
`bytes as f64` divided by `1024^0`: the cast rounds to 53-bit precision
(`roundTo53`, the identity for `bytes ≤ 2^53`) and the `f64 → u64` cast
saturates at `u64::MAX`. -/
def bytesToHumanReadable (bytes : Nat) : String :=
  if bytes = 0 then "0 B"
  else
    let i0 := unitIndex bytes
    let i := if i0 < 5 then i0 else 0
    if i = 0 then toString (min (roundTo53 bytes) (2 ^ 64 - 1)) ++ " B"
    else oneDecimal bytes i ++ " " ++ unitName i

/-! ### Renderer, real-filesystem mode (`format_entry_line`) -/

/-- `{size:5}`: the decimal rendering of `size`, left-padded with spaces to
width 5. -/
def padTo5 (size : Nat) : String :=
  let s := toString size
  String.mk (List.replicate (5 - s.length) ' ') ++ s

/-- Path rendering with `/` separators, standing in for `Path::display`. -/
def joinSlash (segs : List String) : String :=
  match segs with
  | [] => ""
  | [s] => s
  | s :: rest => s ++ "/" ++ joinSlash rest

/-- `format_entry_line` (`src/rust_tree/traversal.rs` lines 129–248):
indentation columns from the ancestor `indent_state` (`true` = that ancestor
was a last sibling, so blank column), the connector glyph selected by
`(no_indent, is_last, ascii)`, the name (full path under `full_path`), the
`--classify` indicator, and the bracketed size. The permission column, the
colorizer and the modification-date column are decorations of collaborators
outside the embedded option subset (none of the claims enables them) and are
omitted here together with their option fields. `pathSegs` is the segment
list of `entry.path()` including the user-supplied root. -/
def formatEntryLine (e : RawEntry) (o : TreeOptions) (indentState : List Bool)
    (isLast : Bool) (pathSegs : List String) : String :=
  let indentPart :=
    if !o.no_indent && !indentState.isEmpty then
      String.join (indentState.map (fun isParentLast =>
        if isParentLast then "    "
        else if o.ascii then "|   " else "│   "))
    else ""
  let linePgh : String :=
    match o.no_indent, isLast, o.ascii with
    | true, _, _ => ""
    | false, true, true => "+---"
    | false, true, false => "└── "
    | false, false, true => "\\---"
    | false, false, false => "├── "
  let namePart := if o.full_path then joinSlash pathSegs else e.name
  let indicator :=
    if o.classify then
      if e.isDir then "/"
      else if e.exec then "*" else ""
    else ""
  let sizePart :=
    if !e.isDir && (o.print_size || o.human_readable) then
      if o.human_readable then " [" ++ bytesToHumanReadable e.size ++ "]"
      else " [" ++ padTo5 e.size ++ "B]"
    else ""
  indentPart ++ linePgh ++ namePart ++ indicator ++ sizePart

/-! ### Traversal Engine, real-filesystem mode (`traverse_directory`) -/

/-- The filesystem as the traversal observes it: for each path below the
root (a list of name segments), either the raw entries of that directory in
the order `fs::read_dir` yields them, or `none` when the directory cannot be
read. A fixed filesystem state corresponds to a fixed family of entry
*sets*; the per-run `read_dir` order is the list order. -/
def Fs : Type := List String → Option (List RawEntry)

/-- The recursion-limit decision of `traverse_directory` (lines 371–405),
taken per printed directory entry: skip when `level` caps the next depth;
otherwise, under `filelimit`, read the child's *raw* entry count and skip
when it exceeds the limit (an unreadable child only warns and does not
skip). -/
def skipRecursion (fs : Fs) (o : TreeOptions) (path : List String)
    (e : RawEntry) (depth : Nat) : Bool :=
  let skipLevel :=
    match o.level with
    | some maxLevel => decide (maxLevel ≤ depth + 1)
    | none => false
  if skipLevel then true
  else
    match o.file_limit with
    | some limit =>
      match fs (path ++ [e.name]) with
      | some reader => decide (limit < reader.length)
      | none => false
    | none => false

/-- The entry loop of `traverse_directory` (lines 356–426): for each kept
entry, with `is_last` exactly on the final index, emit its line, count it as
a directory or file, and recurse into directories (through `recur`, the
traversal of a subdirectory) unless a limit skips the recursion; a failing
recursive call propagates its error, abandoning the remaining siblings. -/
def traverseEntries (fs : Fs) (o : TreeOptions) (rootStr : String)
    (recur : List String → Nat → List Bool → Except String (List String × Nat × Nat))
    (path : List String) (depth : Nat) (indentState : List Bool) :
    List RawEntry → Except String (List String × Nat × Nat)
  | [] => .ok ([], 0, 0)
  | e :: rest =>
    let isLast := rest.isEmpty
    let line := formatEntryLine e o indentState isLast (rootStr :: path ++ [e.name])
    if e.isDir then
      let sub :=
        if skipRecursion fs o path e depth then Except.ok ([], 0, 0)
        else recur (path ++ [e.name]) (depth + 1) (indentState ++ [isLast])
      match sub with
      | .error msg => .error msg
      | .ok (subLines, subD, subF) =>
        match traverseEntries fs o rootStr recur path depth indentState rest with
        | .error msg => .error msg
        | .ok (restLines, restD, restF) =>
          .ok (line :: subLines ++ restLines, 1 + subD + restD, subF + restF)
    else
      match traverseEntries fs o rootStr recur path depth indentState rest with
      | .error msg => .error msg
      | .ok (restLines, restD, restF) =>
        .ok (line :: restLines, restD, 1 + restF)

/-- One call of `traverse_directory` (`src/rust_tree/traversal.rs` lines
250–429): read the directory (`none` aborts with the error, as the source's
`return Err(e)` does), filter with `should_skip_entry`, sort with the Sort
Policy, then walk the kept entries. Returns the emitted lines and the
`(directories, files)` stats delta; the source's `&mut` accumulator is the
sum of these deltas. `fuel` bounds the recursion depth and only decreases on
entering a subdirectory. -/
def traverseDir (fs : Fs) (o : TreeOptions) (rootStr : String) :
    Nat → List String → Nat → List Bool → Except String (List String × Nat × Nat)
  | 0, _, _, _ => .error "fuel exhausted"
  | fuel + 1, path, depth, indentState =>
    match fs path with
    | none => .error "cannot read directory"
    | some raw =>
      let entries := sortEntries o (raw.filter (fun e => !shouldSkipEntry e o))
      traverseEntries fs o rootStr (traverseDir fs o rootStr fuel)
        path depth indentState entries

/-- The summary line written by `list_from_filesystem_with_writer` (lines
560–578) and `display_virtual_tree_with_writer`: `writeln!("\n{} {}, {} {}")`
contributes a blank line followed by the count line, with singular words
exactly at count 1. -/
def summaryLines (d f : Nat) : List String :=
  ["", toString d ++ " " ++ (if d = 1 then "directory" else "directories")
       ++ ", " ++ toString f ++ " " ++ (if f = 1 then "file" else "files")]

/-- `list_from_filesystem_with_writer` (lines 531–578): the root display
line, the traversal of the root directory at depth 0 with empty indent
state, then the summary unless `--noreport`. `rootStr` is the root display
path (the path's file name, or the full path under `full_path`). -/
def listFromFilesystem (fs : Fs) (o : TreeOptions) (rootStr : String)
    (fuel : Nat) : Except String (List String) :=
  match traverseDir fs o rootStr fuel [] 0 [] with
  | .error msg => .error msg
  | .ok (lines, d, f) =>
    .ok (rootStr :: lines ++ (if !o.no_report then summaryLines d f else []))

/-- The exit-code wiring of `main` (`src/main.rs` lines 192–205) for the
real-filesystem mode without an output file: `Ok` exits 0; an error that is
not a broken pipe is printed and the process exits 1 (no pipe is modelled,
so every error takes the non-zero branch). -/
def mainExitCode (fs : Fs) (o : TreeOptions) (rootStr : String)
    (fuel : Nat) : Nat :=
  match listFromFilesystem fs o rootStr fuel with
  | .ok _ => 0
  | .error _ => 1

/-! ### Traversal Engine, virtual mode (`display_virtual_tree_with_writer`,
`display_virtual_entries`, `display_virtual_entry`) -/

/-- The parent key of a virtual path: the text before the last `/`
(`entry.path.rfind('/')`), the empty string when there is no slash. -/
def parentOf (path : String) : String :=
  match path.data.reverse.dropWhile (fun c => c != '/') with
  | [] => ""
  | _ :: rest => String.mk rest.reverse

/-- The sibling bucket of `parent` in the `children` hash map built by
`display_virtual_tree_with_writer` (lines 590–607): the entries with a
non-empty path whose parent key is `parent`, in `entries` order (hash-map
buckets preserve per-key push order). -/
def childrenOf (entries : List FileEntry) (parent : String) : List FileEntry :=
  entries.filter (fun e => !(e.path == "") && parentOf e.path == parent)

/-- The per-bucket comparator of `display_virtual_tree_with_writer` (lines
610–622): with `dirs_first`, directories strictly before files and path
order inside each kind; otherwise path order. -/
def virtualCmp (o : TreeOptions) (a b : FileEntry) : Ordering :=
  if o.dirs_first then
    match a.is_dir, b.is_dir with
    | true, false => .lt
    | false, true => .gt
    | _, _ => strCmp a.path b.path
  else strCmp a.path b.path

/-- Non-strict order for the stable per-bucket sort. -/
def leV (o : TreeOptions) (a b : FileEntry) : Prop := virtualCmp o a b ≠ .gt

instance (o : TreeOptions) : DecidableRel (leV o) := fun a b => by
  unfold leV; infer_instance

/-- The stable per-bucket sort (`child_list.sort_by`). -/
def sortVirtualEntries (o : TreeOptions) (l : List FileEntry) : List FileEntry :=
  l.insertionSort (leV o)

/-- `display_virtual_entry` (`src/rust_tree/traversal.rs` lines 713–774):
the indent columns (`true` in `indent_state` means the ancestor still has a
later sibling, so a bar column), the connector chosen by `(is_last, ascii)`
— all suppressed by `no_indent` — then the file name (full path under
`full_path`), the `--classify` `/` for directories, and the size prfront
under the size options when the entry has one. -/
def displayVirtualEntry (e : FileEntry) (o : TreeOptions)
    (indentState : List Bool) (isLast : Bool) : String :=
  let pgh :=
    if !o.no_indent then
      String.join (indentState.map (fun hasSibling =>
        if o.ascii then (if hasSibling then "|   " else "    ")
        else (if hasSibling then "│   " else "    ")))
      ++ (if o.ascii then (if isLast then "`-- " else "|-- ")
          else (if isLast then "└── " else "├── "))
    else ""
  let filename := fileNameOf e.path
  let displayName := if o.full_path then e.path else filename
  let displayName :=
    if o.classify && e.is_dir then displayName ++ "/" else displayName
  let displayName :=
    if o.print_size || o.human_readable then
      match e.size with
      | some size =>
        "[" ++ (if o.human_readable then bytesToHumanReadable size
                else toString size) ++ "]  " ++ displayName
      | none => displayName
    else displayName
  pgh ++ displayName

/-- The sibling loop of `display_virtual_entries` (lines 674–708): `is_last`
is taken from the index in the **unfiltered** bucket, then the filter may
`continue`; a kept entry is counted, emitted, and when it is a directory its
bucket is displayed through `recur` with `!is_last` pushed on the indent
state. -/
def displayVirtualLoop (o : TreeOptions)
    (recur : String → List Bool → List String × Nat × Nat)
    (indentState : List Bool) :
    List FileEntry → List String × Nat × Nat
  | [] => ([], 0, 0)
  | e :: rest =>
    let isLast := rest.isEmpty
    if shouldSkipVirtualEntry e o then
      displayVirtualLoop o recur indentState rest
    else
      let line := displayVirtualEntry e o indentState isLast
      let sub := if e.is_dir then recur e.path (indentState ++ [!isLast])
                 else ([], 0, 0)
      let restOut := displayVirtualLoop o recur indentState rest
      if e.is_dir then
        (line :: sub.1 ++ restOut.1, 1 + sub.2.1 + restOut.2.1,
         sub.2.2 + restOut.2.2)
      else
        (line :: restOut.1, restOut.2.1, 1 + restOut.2.2)

/-- `display_virtual_entries` (lines 658–711): refusal when `level` caps the
current depth, then the sibling loop; recursion into a directory displays
its (sorted) bucket one level deeper. `fuel` bounds the recursion depth. -/
def displayVirtualSubtree (allEntries : List FileEntry) (o : TreeOptions) :
    Nat → List FileEntry → List Bool → Nat → List String × Nat × Nat
  | 0, _, _, _ => ([], 0, 0)
  | fuel + 1, siblings, indentState, depth =>
    if (match o.level with
        | some maxLevel => decide (maxLevel ≤ depth)
        | none => false) then ([], 0, 0)
    else
      displayVirtualLoop o
        (fun p newIndent =>
          displayVirtualSubtree allEntries o fuel
            (sortVirtualEntries o (childrenOf allEntries p)) newIndent
            (depth + 1))
        indentState siblings

/-- `display_virtual_tree_with_writer` (lines 580–656): the root name line,
the display of the root bucket (children of the empty parent key) at depth
0, and the summary unless `--noreport`. -/
def displayVirtualTree (entries : List FileEntry) (o : TreeOptions)
    (fuel : Nat) (rootName : String) : List String :=
  let out := displayVirtualSubtree entries o fuel
    (sortVirtualEntries o (childrenOf entries "")) [] 0
  rootName :: out.1 ++ (if !o.no_report then summaryLines out.2.1 out.2.2
                        else [])

/-! ### Listing Parser, simple-path format (`parse_simple_paths`) -/

/-- `line.ends_with('/')` on the character list. -/
def endsWithSlash (s : String) : Bool :=
  match s.data.reverse with
  | [] => false
  | c :: _ => c == '/'

/-- `trim_end_matches('/')`: remove every trailing slash. -/
def dropTrailingSlashes (cs : List Char) : List Char :=
  (cs.reverse.dropWhile (fun c => c == '/')).reverse

/-- The directory-marker handling of one simple-path line: a trailing `/`
marks a directory and is trimmed from the stored path. -/
def simpleLineClean (line : String) : String × Bool :=
  let isDir := endsWithSlash line
  let clean := if isDir then String.mk (dropTrailingSlashes line.data)
               else line
  (clean, isDir)

/-- `str::split('/')` on the character list: the `/`-delimited segments,
with empty segments preserved (`split` on an empty string yields one empty
segment, as in Rust). -/
def splitSlash : List Char → List (List Char)
  | [] => [[]]
  | c :: rest =>
    match splitSlash rest with
    | [] => [[]]
    | seg :: segs =>
      if c == '/' then [] :: seg :: segs else (c :: seg) :: segs

/-- `[..].join("/")`: interleave `/` between segments. -/
def joinSlashC : List (List Char) → List Char
  | [] => []
  | [seg] => seg
  | seg :: rest => seg ++ '/' :: joinSlashC rest

/-- `HashMap::insert`: replace the value at an existing key (the first
binding — keys stay distinct), else append a new binding. The model keeps
key insertion order; the source's hash map exposes no order, and every
claim about the parser is order-insensitive. -/
def mapInsert (m : List (String × FileEntry)) (k : String) (v : FileEntry) :
    List (String × FileEntry) :=
  match m with
  | [] => [(k, v)]
  | kv :: rest =>
    if kv.1 == k then (k, v) :: rest else kv :: mapInsert rest k v

/-- `HashMap::entry(k).or_insert_with(v)`: insert only when the key is
absent. -/
def mapInsertAbsent (m : List (String × FileEntry)) (k : String)
    (v : FileEntry) : List (String × FileEntry) :=
  match m with
  | [] => [(k, v)]
  | kv :: rest =>
    if kv.1 == k then kv :: rest else kv :: mapInsertAbsent rest k v

/-- `HashMap::get` by key. -/
def mapLookup (m : List (String × FileEntry)) (k : String) :
    Option FileEntry :=
  (m.find? (fun kv => kv.1 == k)).map (fun kv => kv.2)

/-- One step of the ancestor-synthesis loop of `parse_simple_paths` (lines
268–281): for index `i ≥ 1`, insert the joined first `i` segments as a
directory entry, only when absent and non-empty. -/
def ancestorStep (cleanData : List Char) (m : List (String × FileEntry))
    (i : Nat) : List (String × FileEntry) :=
  if i == 0 then m
  else
    let parentPath := String.mk (joinSlashC ((splitSlash cleanData).take i))
    if parentPath == "" then m
    else mapInsertAbsent m parentPath ⟨parentPath, true, none⟩

/-- The ancestor-synthesis loop of `parse_simple_paths`: the Rust
`for i in 1..path_parts.len()` is the fold of `ancestorStep` over
`0 .. parts.len()` with the `i = 0` step a no-op. -/
def insertAncestors (m : List (String × FileEntry)) (cleanData : List Char) :
    List (String × FileEntry) :=
  (List.range (splitSlash cleanData).length).foldl (ancestorStep cleanData) m

/-- One iteration of the `parse_simple_paths` line loop (lines 246–282):
clean the line, skip it when empty, insert the explicit entry (replacing any
previous binding at that path), then synthesize its missing ancestors. -/
def parseSimpleLine (m : List (String × FileEntry)) (line : String) :
    List (String × FileEntry) :=
  let clean := (simpleLineClean line).1
  if clean == "" then m
  else insertAncestors
    (mapInsert m clean ⟨clean, (simpleLineClean line).2, none⟩) clean.data

/-- The accumulated map of `parse_simple_paths` (`src/rust_tree/fromfile.rs`
lines 243–285), before `into_values`. -/
def parseSimplePathsMap (lines : List String) :
    List (String × FileEntry) :=
  lines.foldl parseSimpleLine []

/-- `parse_simple_paths`: the collected values. `HashMap::into_values`
yields them in unspecified order; the model yields key-insertion order
(all downstream consumers sort per bucket, and the parser claims are about
content, not order). -/
def parseSimplePaths (lines : List String) : List FileEntry :=
  (parseSimplePathsMap lines).map (fun kv => kv.2)

/-- Modelled from the spec: "backslashes become forward slashes" — one
character of the normalization map. -/
def slashifyChar (c : Char) : Char :=
  if c == '\\' then '/' else c

/-- Modelled from the spec: "a leading `./` is stripped" (once). -/
def stripDotSlash (cs : List Char) : List Char :=
  match cs with
  | '.' :: '/' :: rest => rest
  | other => other

/-- Modelled from the spec: "a two-character `X:` drive prefix (single
letter + colon) is rewritten to `X`". -/
def stripDrive (cs : List Char) : List Char :=
  match cs with
  | c :: ':' :: rest => if c.isAlpha then c :: rest else c :: ':' :: rest
  | other => other

/-- Modelled from the spec: the private `normalize_path` helper of
`src/rust_tree/fromfile.rs` is missing from the source snapshot (the
snapshot's `fromfile.rs` predates it; `tests/path_normalization_tests.rs`
and the callers in the newer parse functions reference it). Following the
spec's words, the three rewrites are applied in the listed order, each
once. -/
def normalize_path (p : String) : String :=
  String.mk (stripDrive (stripDotSlash (p.data.map slashifyChar)))

/-- Modelled from the spec: the line loop of the current
`parse_simple_paths` with post-parse normalization — the cleaned path is
normalized before the explicit insertion and before ancestor synthesis
("applied to every path before insertion"). -/
def parseSimpleLineN (m : List (String × FileEntry)) (line : String) :
    List (String × FileEntry) :=
  let clean := normalize_path (simpleLineClean line).1
  if clean == "" then m
  else insertAncestors
    (mapInsert m clean ⟨clean, (simpleLineClean line).2, none⟩) clean.data

/-- Modelled from the spec: `parse_simple_paths` with normalization, the
collected entries. -/
def parseSimplePathsN (lines : List String) : List FileEntry :=
  (lines.foldl parseSimpleLineN []).map (fun kv => kv.2)

/-! ### Concrete filesystems and listings used by the scenario claims -/

/-- The scenario tree `root/{dir1/{dir1_1/, file2.txt}, dir2/{file3.txt},
file1.txt}` of §8, with `read_dir` yielding name order. -/
def scenarioFs : Fs := fun p =>
  match p with
  | [] => some [⟨"dir1", true, none, 0, false⟩, ⟨"dir2", true, none, 0, false⟩,
                ⟨"file1.txt", false, none, 0, false⟩]
  | ["dir1"] => some [⟨"dir1_1", true, none, 0, false⟩,
                      ⟨"file2.txt", false, none, 0, false⟩]
  | ["dir1", "dir1_1"] => some []
  | ["dir2"] => some [⟨"file3.txt", false, none, 0, false⟩]
  | _ => none

/-- A root with an unreadable first subdirectory `dirA` and a readable
sibling `dirB` after it. -/
def unreadableFs : Fs := fun p =>
  match p with
  | [] => some [⟨"dirA", true, none, 0, false⟩, ⟨"dirB", true, none, 0, false⟩,
                ⟨"fileC", false, none, 0, false⟩]
  | ["dirB"] => some []
  | _ => none

/-- Spec-side: the last explicit (non-empty) occurrence of path `p` among
the parsed lines — "last parse wins". -/
def lastExplicit (lines : List String) (p : String) : Option FileEntry :=
  lines.foldl
    (fun acc line =>
      let clean := (simpleLineClean line).1
      if clean == p && !(clean == "") then
        some ⟨clean, (simpleLineClean line).2, none⟩
      else acc)
    none

/-- Spec-side: the ancestor paths the synthesis loop actually inserts when
run over the index list `is`: the joins of the first `i` segments for
`i ∈ is`, `i ≠ 0`, non-empty joins only. -/
def ancestorPathsIdx (cs : List Char) (is : List Nat) : List String :=
  (((is.filter (fun i => !(i == 0))).map
    (fun i => String.mk (joinSlashC ((splitSlash cs).take i)))).filter
    (fun s => !(s == "")))

/-- Spec-side: the proper-prefix paths the synthesis loop considers for one
cleaned path (the joins of the first `i` segments, `1 ≤ i < parts.len()`,
non-empty ones only). -/
def properAncestorsOf (clean : String) : List String :=
  ancestorPathsIdx clean.data (List.range (splitSlash clean.data).length)

/-- Spec-side: every ancestor path synthesized over a whole line list. -/
def allAncestorsOf (lines : List String) : List String :=
  lines.flatMap (fun line =>
    let clean := (simpleLineClean line).1
    if clean == "" then [] else properAncestorsOf clean)

/-- Two enumeration orders of one root directory (a directory `a` and a
file `b.txt`), as a concrete fixed filesystem state. -/
def permFsA : Fs := fun p =>
  if p.isEmpty then
    some [⟨"b.txt", false, some 5, 1, false⟩, ⟨"a", true, some 9, 0, false⟩]
  else some []

/-- The same state, enumerated in the opposite order. -/
def permFsB : Fs := fun p =>
  if p.isEmpty then
    some [⟨"a", true, some 9, 0, false⟩, ⟨"b.txt", false, some 5, 1, false⟩]
  else some []

/-- A two-sibling virtual listing whose byte-order **last** sibling `.z` is
hidden: `'!' < '.'`, so `!a` sorts first and `.z` last. -/
def listingLastHidden : List FileEntry :=
  [⟨"!a", false, none⟩, ⟨".z", false, none⟩]

end RustTree

deriving instance DecidableEq for Except

namespace RustTree

/-! ## Claim C8 — human-readable size rendering -/

/-- **C8 counterexample**: at `bytes = 1024^5 - 1` the largest unit of the
table whose threshold is at or below `bytes` is `TB` (`i = 4`, and the
truncated quotient `bytes / 1024^4 = 1023` is below 1024), so the claimed
rule renders `oneDecimal bytes 4 ++ " TB" = "1024.0 TB"`; but the float
unit exponent already reaches the out-of-range index 5 here (the `f64`
quotient `ln(bytes)/ln(1024)` rounds up to `5.0` from `1024^5 - 3` on), so
the program clamps to unit `B` and prints the raw byte count instead. -/
theorem C8_counterexample :
    1024 ^ 4 ≤ 1024 ^ 5 - 1 ∧ (1024 ^ 5 - 1) / 1024 ^ 4 < 1024 ∧
    oneDecimal (1024 ^ 5 - 1) 4 ++ " " ++ unitName 4 = "1024.0 TB" ∧
    bytesToHumanReadable (1024 ^ 5 - 1) =
      toString (1024 ^ 5 - 1 : Nat) ++ " B" ∧
    bytesToHumanReadable (1024 ^ 5 - 1) ≠ "1024.0 TB" := by
  decide

/-- **C8** (amended): the human-readable size formatter maps 3, 1024,
1048576 and 0 to `"3 B"`, `"1.0 KB"`, `"1.0 MB"` and `"0 B"`; every value
below 1024 renders as the integer with unit `B`; every value in
`[1024, 1024^5 - 3)` renders with one decimal place under the unit whose
exponent `i` is the largest with `1024^i ≤ bytes` — equivalently the
largest unit under which the truncated value is below 1024; and from
`1024^5 - 3` on (where the float unit exponent reaches the out-of-range
index 5, three units before the `TB` range actually ends) the formatter
falls back to the raw byte count with unit `B`. -/
theorem C8_human_readable_sizes :
    (bytesToHumanReadable 3 = "3 B" ∧ bytesToHumanReadable 1024 = "1.0 KB" ∧
     bytesToHumanReadable 1048576 = "1.0 MB" ∧
     bytesToHumanReadable 0 = "0 B") ∧
    (∀ bytes : Nat, bytes < 1024 →
      bytesToHumanReadable bytes = toString bytes ++ " B") ∧
    (∀ bytes : Nat, 1024 ≤ bytes → bytes < 1024 ^ 5 - 3 →
      ∃ i, 1 ≤ i ∧ i ≤ 4 ∧ 1024 ^ i ≤ bytes ∧ bytes < 1024 ^ (i + 1) ∧
        bytes / 1024 ^ i < 1024 ∧
        bytesToHumanReadable bytes = oneDecimal bytes i ++ " " ++ unitName i) ∧
    (∀ bytes : Nat, 1024 ^ 5 - 3 ≤ bytes → bytes ≤ 2 ^ 53 →
      bytesToHumanReadable bytes = toString bytes ++ " B") := by
  refine ⟨by decide, ?_, ?_, ?_⟩
  · intro bytes hlt
    by_cases h0 : bytes = 0
    · subst h0; decide
    · have hidx : unitIndex bytes = 0 := by
        unfold unitIndex; rw [if_pos hlt]
      have h53 : roundTo53 bytes = bytes := by
        have hb : bytes ≤ 2 ^ 53 := by
          have : (1024 : Nat) ≤ 2 ^ 53 := by norm_num
          omega
        unfold roundTo53; rw [if_pos hb]
      have hmin : min (roundTo53 bytes) 18446744073709551615 = bytes := by
        rw [h53]; omega
      unfold bytesToHumanReadable
      rw [if_neg h0]
      simp only [hidx]
      norm_num [hmin]
  · intro bytes hge hlt
    have h0 : ¬ bytes = 0 := by omega
    have hpows : (1024 : Nat) ^ 2 = 1048576 ∧ (1024 : Nat) ^ 3 = 1073741824 ∧
        (1024 : Nat) ^ 4 = 1099511627776 ∧
        (1024 : Nat) ^ 5 = 1125899906842624 := by norm_num
    obtain ⟨hp2, hp3, hp4, hp5⟩ := hpows
    have hdiv : ∀ i : Nat, bytes < 1024 ^ (i + 1) → bytes / 1024 ^ i < 1024 := by
      intro i hi
      have hpos : 0 < (1024 : Nat) ^ i := Nat.pos_pow_of_pos i (by norm_num)
      rw [Nat.div_lt_iff_lt_mul hpos]
      calc bytes < 1024 ^ (i + 1) := hi
        _ = 1024 * 1024 ^ i := by rw [pow_succ]; ring
    by_cases h2 : bytes < 1024 ^ 2
    · have hidx : unitIndex bytes = 1 := by
        unfold unitIndex; rw [if_neg (by omega), if_pos h2]
      refine ⟨1, by omega, by omega, by simpa using hge, by simpa using h2,
        hdiv 1 (by simpa using h2), ?_⟩
      unfold bytesToHumanReadable
      rw [if_neg h0]
      simp only [hidx]
      norm_num
    · by_cases h3 : bytes < 1024 ^ 3
      · have hidx : unitIndex bytes = 2 := by
          unfold unitIndex
          rw [if_neg (by omega), if_neg (by omega), if_pos (by omega)]
        refine ⟨2, by omega, by omega, by omega, by omega,
          hdiv 2 (by omega), ?_⟩
        unfold bytesToHumanReadable
        rw [if_neg h0]
        simp only [hidx]
        norm_num
      · by_cases h4 : bytes < 1024 ^ 4
        · have hidx : unitIndex bytes = 3 := by
            unfold unitIndex
            rw [if_neg (by omega), if_neg (by omega), if_neg (by omega),
              if_pos (by omega)]
          refine ⟨3, by omega, by omega, by omega, by omega,
            hdiv 3 (by omega), ?_⟩
          unfold bytesToHumanReadable
          rw [if_neg h0]
          simp only [hidx]
          norm_num
        · have hidx : unitIndex bytes = 4 := by
            unfold unitIndex
            rw [if_neg (by omega), if_neg (by omega), if_neg (by omega),
              if_neg (by omega), if_pos (by omega)]
          refine ⟨4, by omega, by omega, by omega, by omega,
            hdiv 4 (by omega), ?_⟩
          unfold bytesToHumanReadable
          rw [if_neg h0]
          simp only [hidx]
          norm_num
  · intro bytes hge h53b
    have hpows : (1024 : Nat) ^ 2 = 1048576 ∧ (1024 : Nat) ^ 3 = 1073741824 ∧
        (1024 : Nat) ^ 4 = 1099511627776 ∧
        (1024 : Nat) ^ 5 = 1125899906842624 := by norm_num
    obtain ⟨hp2, hp3, hp4, hp5⟩ := hpows
    have h0 : ¬ bytes = 0 := by omega
    have hidx : unitIndex bytes = 5 := by
      unfold unitIndex
      rw [if_neg (by omega), if_neg (by omega), if_neg (by omega),
        if_neg (by omega), if_neg (by omega)]
    have h53 : roundTo53 bytes = bytes := by
      unfold roundTo53; rw [if_pos h53b]
    have hmin : min (roundTo53 bytes) 18446744073709551615 = bytes := by
      rw [h53]
      have : (2 : Nat) ^ 53 ≤ 18446744073709551615 := by norm_num
      omega
    unfold bytesToHumanReadable
    rw [if_neg h0]
    simp only [hidx]
    norm_num [hmin]

/-- Witness for C8: the clauses with hypotheses, evaluated at 512, 2048
and `1024^5 - 2`. -/
theorem C8_human_readable_sizes_witness :
    bytesToHumanReadable 512 = toString 512 ++ " B" ∧
    (∃ i, 1 ≤ i ∧ i ≤ 4 ∧ 1024 ^ i ≤ 2048 ∧ 2048 < 1024 ^ (i + 1) ∧
      2048 / 1024 ^ i < 1024 ∧
      bytesToHumanReadable 2048 = oneDecimal 2048 i ++ " " ++ unitName i) ∧
    bytesToHumanReadable (1024 ^ 5 - 2) = toString (1024 ^ 5 - 2 : Nat) ++ " B" :=
  ⟨C8_human_readable_sizes.2.1 512 (by norm_num),
   C8_human_readable_sizes.2.2.1 2048 (by norm_num) (by norm_num),
   C8_human_readable_sizes.2.2.2 (1024 ^ 5 - 2) (by norm_num) (by norm_num)⟩

/-! ## Claim C3 — filter rule order and the include-glob directory exemption -/

/-- **C3 counterexample**: the claim asserts that in *both* modes a
directory entry is never skipped because it fails the include-glob. In
virtual mode a plain directory (`somedir`: not hidden, no exclude pattern,
`--directories` off) *is* skipped when the include pattern does not match
it, while the real-filesystem filter keeps the same directory under the
same pattern. -/
theorem C3_counterexample :
    shouldSkipVirtualEntry ⟨"somedir", true, none⟩
      { pattern_glob := some (fun n => n == "keep.txt") } = true ∧
    shouldSkipEntry ⟨"somedir", true, none, 0, false⟩
      { pattern_glob := some (fun n => n == "keep.txt") } = false := by
  constructor <;> rfl

/-- **C3 (amended)**: both filters apply the rules hidden, exclude-glob,
include-glob, directories-only, in that order with first match winning, so
a matching exclude skips regardless of the include pattern; in *real
filesystem* mode directories are exempt from the include-glob (the include
pattern is irrelevant to a directory, and a non-matching file is skipped),
while in *virtual* mode the include-glob applies to every entry, including
directories. -/
theorem C3_filter_rules :
    (∀ (e : RawEntry) (o : TreeOptions), e.isDir = true →
      shouldSkipEntry e o = shouldSkipEntry e { o with pattern_glob := none }) ∧
    (∀ (e : RawEntry) (o : TreeOptions) (p : String → Bool),
      o.pattern_glob = some p → e.isDir = false → p e.name = false →
      shouldSkipEntry e o = true) ∧
    (∀ (e : FileEntry) (o : TreeOptions) (p : String → Bool),
      o.pattern_glob = some p → p (fileNameOf e.path) = false →
      shouldSkipVirtualEntry e o = true) ∧
    (∀ (e : RawEntry) (o : TreeOptions) (p : String → Bool),
      o.exclude_pattern = some p → p e.name = true →
      shouldSkipEntry e o = true) ∧
    (∀ (e : FileEntry) (o : TreeOptions) (p : String → Bool),
      o.exclude_pattern = some p → p (fileNameOf e.path) = true →
      shouldSkipVirtualEntry e o = true) ∧
    (∀ (e : RawEntry) (o : TreeOptions), o.all_files = false →
      startsWithDot e.name = true → shouldSkipEntry e o = true) ∧
    (∀ (e : FileEntry) (o : TreeOptions), o.all_files = false →
      startsWithDot (fileNameOf e.path) = true →
      shouldSkipVirtualEntry e o = true) ∧
    (∀ (e : RawEntry) (o : TreeOptions), o.dir_only = true →
      e.isDir = false → shouldSkipEntry e o = true) ∧
    (∀ (e : FileEntry) (o : TreeOptions), o.dir_only = true →
      e.is_dir = false → shouldSkipVirtualEntry e o = true) := by
  refine ⟨?_, ?_, ?_, ?_, ?_, ?_, ?_, ?_, ?_⟩
  · intro e o hdir
    simp only [shouldSkipEntry, hdir]
    cases o.pattern_glob <;> simp
  · intro e o p hp hdir hmatch
    simp only [shouldSkipEntry, hp, hdir, hmatch]
    split <;> simp
  · intro e o p hp hmatch
    simp only [shouldSkipVirtualEntry, hp, hmatch]
    split <;> simp
  · intro e o p hp hmatch
    simp only [shouldSkipEntry, hp, hmatch]
    split <;> simp
  · intro e o p hp hmatch
    simp only [shouldSkipVirtualEntry, hp, hmatch]
    split <;> simp
  · intro e o hall hdot
    simp [shouldSkipEntry, hall, hdot]
  · intro e o hall hdot
    simp [shouldSkipVirtualEntry, hall, hdot]
  · intro e o hdo hdir
    simp only [shouldSkipEntry, hdo, hdir]
    split
    · rfl
    · split
      · rfl
      · split <;> simp
  · intro e o hdo hdir
    simp only [shouldSkipVirtualEntry, hdo, hdir]
    split
    · rfl
    · split
      · rfl
      · split <;> simp

/-- Witness for C3: each clause applied at a concrete entry, option set and
pattern. -/
theorem C3_filter_rules_witness :
    (shouldSkipEntry ⟨"d", true, none, 0, false⟩
        { pattern_glob := some (fun n => n == "x") } =
      shouldSkipEntry ⟨"d", true, none, 0, false⟩ {}) ∧
    shouldSkipEntry ⟨"f.log", false, none, 0, false⟩
      { pattern_glob := some (fun n => n == "x") } = true ∧
    shouldSkipVirtualEntry ⟨"somedir", true, none⟩
      { pattern_glob := some (fun n => n == "x") } = true ∧
    shouldSkipEntry ⟨"bad", false, none, 0, false⟩
      { exclude_pattern := some (fun n => n == "bad"),
        pattern_glob := some (fun _ => true) } = true ∧
    shouldSkipVirtualEntry ⟨"bad", false, none⟩
      { exclude_pattern := some (fun n => n == "bad"),
        pattern_glob := some (fun _ => true) } = true ∧
    shouldSkipEntry ⟨".git", true, none, 0, false⟩ {} = true ∧
    shouldSkipVirtualEntry ⟨".git", true, none⟩ {} = true ∧
    shouldSkipEntry ⟨"f", false, none, 0, false⟩ { dir_only := true } = true ∧
    shouldSkipVirtualEntry ⟨"f", false, none⟩ { dir_only := true } = true := by
  refine ⟨?_, ?_, ?_, ?_, ?_, ?_, ?_, ?_, ?_⟩
  · exact C3_filter_rules.1 ⟨"d", true, none, 0, false⟩
      { pattern_glob := some (fun n => n == "x") } rfl
  · exact C3_filter_rules.2.1 ⟨"f.log", false, none, 0, false⟩ _ _ rfl rfl rfl
  · exact C3_filter_rules.2.2.1 ⟨"somedir", true, none⟩ _ _ rfl (by rfl)
  · exact C3_filter_rules.2.2.2.1 ⟨"bad", false, none, 0, false⟩ _ _ rfl rfl
  · exact C3_filter_rules.2.2.2.2.1 ⟨"bad", false, none⟩ _ _ rfl (by rfl)
  · exact C3_filter_rules.2.2.2.2.2.1 ⟨".git", true, none, 0, false⟩ {} rfl rfl
  · exact C3_filter_rules.2.2.2.2.2.2.1 ⟨".git", true, none⟩ {} rfl (by rfl)
  · exact C3_filter_rules.2.2.2.2.2.2.2.1 ⟨"f", false, none, 0, false⟩
      { dir_only := true } rfl rfl
  · exact C3_filter_rules.2.2.2.2.2.2.2.2 ⟨"f", false, none⟩
      { dir_only := true } rfl rfl

/-! ## Claim C2 — dirs-first combined with reverse -/

/-- **C2 counterexample**: with one directory `a` and one file `b`, the code
under `--dirsfirst -r` yields `[a, b]` — directories still first — whereas
reversing the concatenated dirs-then-files order (what the claim describes)
would yield `[b, a]`. -/
theorem C2_counterexample :
    sortEntries { dirs_first := true, reverse := true }
        [⟨"a", true, none, 0, false⟩, ⟨"b", false, none, 0, false⟩] =
      [⟨"a", true, none, 0, false⟩, ⟨"b", false, none, 0, false⟩] ∧
    (sortEntries { dirs_first := true, reverse := false }
        [⟨"a", true, none, 0, false⟩, ⟨"b", false, none, 0, false⟩]).reverse =
      [⟨"b", false, none, 0, false⟩, ⟨"a", true, none, 0, false⟩] ∧
    sortEntries { dirs_first := true, reverse := true }
        [⟨"a", true, none, 0, false⟩, ⟨"b", false, none, 0, false⟩] ≠
      (sortEntries { dirs_first := true, reverse := false }
        [⟨"a", true, none, 0, false⟩, ⟨"b", false, none, 0, false⟩]).reverse := by
  refine ⟨by decide, by decide, by decide⟩

/-- **C2 (amended)**: when both `dirs_first` and `reverse` are set, the
reversal is applied to each partition separately *before* the dirs-first
concatenation: the result is the reversed sorted directories followed by the
reversed sorted files, so directories still precede files in the
user-visible order. -/
theorem C2_dirsfirst_reverse :
    ∀ (o : TreeOptions) (l : List RawEntry),
      o.dirs_first = true → o.reverse = true →
      sortEntries o l =
        (sortEntries { o with reverse := false }
          (l.filter (fun e => e.isDir))).reverse ++
        (sortEntries { o with reverse := false }
          (l.filter (fun e => !e.isDir))).reverse := by
  intro o l hd hr
  have hfilter1 : (l.filter (fun e => e.isDir)).filter (fun e => e.isDir) =
      l.filter (fun e => e.isDir) := by
    rw [List.filter_filter]
    simp
  have hfilter2 : (l.filter (fun e => e.isDir)).filter (fun e => !e.isDir) =
      [] := by
    rw [List.filter_filter]
    simp
  have hfilter3 : (l.filter (fun e => !e.isDir)).filter (fun e => e.isDir) =
      [] := by
    rw [List.filter_filter]
    simp
  have hfilter4 : (l.filter (fun e => !e.isDir)).filter (fun e => !e.isDir) =
      l.filter (fun e => !e.isDir) := by
    rw [List.filter_filter]
    simp
  simp only [sortEntries, hd, hr, hfilter1, hfilter2, hfilter3, hfilter4,
    if_true, List.insertionSort, List.append_nil, List.nil_append,
    List.reverse_nil, Bool.false_eq_true, if_false]
  rfl

/-- Witness for C2: the amended equation at a concrete option set and
sibling list. -/
theorem C2_dirsfirst_reverse_witness :
    sortEntries { dirs_first := true, reverse := true }
        [⟨"a", true, none, 0, false⟩, ⟨"b", false, none, 0, false⟩] =
      (sortEntries { dirs_first := true, reverse := false }
        ([⟨"a", true, none, 0, false⟩,
          ⟨"b", false, none, 0, false⟩].filter (fun e => e.isDir))).reverse ++
      (sortEntries { dirs_first := true, reverse := false }
        ([⟨"a", true, none, 0, false⟩,
          ⟨"b", false, none, 0, false⟩].filter (fun e => !e.isDir))).reverse :=
  C2_dirsfirst_reverse { dirs_first := true, reverse := true } _ rfl rfl

/-! ## Claim C9 — scenario B (max-depth 1) -/

/-- **C9 counterexample**: the run is exactly as scenario B describes —
only `dir1`, `dir2`, `file1.txt` at depth 0 — but the summary line of the
code reads `2 directories, 1 file` (singular at count 1), so the claimed
summary text `2 directories, 1 files` appears nowhere in the output. -/
theorem C9_counterexample :
    listFromFilesystem scenarioFs { level := some 1 } "root" 10 =
      .ok ["root", "├── dir1", "├── dir2", "└── file1.txt", "",
           "2 directories, 1 file"] ∧
    "2 directories, 1 files" ∉
      ["root", "├── dir1", "├── dir2", "└── file1.txt", "",
       "2 directories, 1 file"] := by
  refine ⟨by decide, by decide⟩

/-- **C9 (amended)**: for the scenario tree with `max-depth = 1` and
otherwise default options, exactly `dir1`, `dir2` and `file1.txt` are
emitted at depth 0 and the summary reads `2 directories, 1 file`. -/
theorem C9_scenario_depth1 :
    listFromFilesystem scenarioFs { level := some 1 } "root" 10 =
      .ok ["root", "├── dir1", "├── dir2", "└── file1.txt", "",
           "2 directories, 1 file"] := by
  decide

/-! ## Claim C10 — virtual connectors use the unfiltered sibling index -/

/-- **C10**: in virtual mode `is_last` is computed from the index in the
unfiltered sibling bucket. In `listingLastHidden` the byte-order last
sibling `.z` is hidden and filtered out, so the final emitted entry `!a`
still renders with the non-last connector `├── `. -/
theorem C10_connector_from_unfiltered_index :
    sortVirtualEntries {} (childrenOf listingLastHidden "") =
      [⟨"!a", false, none⟩, ⟨".z", false, none⟩] ∧
    shouldSkipVirtualEntry ⟨".z", false, none⟩ {} = true ∧
    displayVirtualTree listingLastHidden {} 5 "." =
      [".", "├── !a", "", "0 directories, 1 file"] := by
  refine ⟨by decide, by decide, by decide⟩

/-! ## Claim C1 — unreadable directory: abort, not continue -/

/-- **C1 counterexample**: with root children `dirA` (unreadable), `dirB`,
`fileC`, the sorted sibling list starts at `dirA`; reading it fails, the
error propagates out of the whole traversal (no output at all — the
remaining siblings `dirB`, `fileC` are never visited) and the process exits
with code 1, not 0. -/
theorem C1_counterexample :
    unreadableFs ["dirA"] = none ∧
    listFromFilesystem unreadableFs {} "root" 10 =
      .error "cannot read directory" ∧
    mainExitCode unreadableFs {} "root" 10 = 1 := by
  refine ⟨by decide, by decide, by decide⟩

/-- **C1 (amended)**: a directory whose entries cannot be read makes the
traversal *abort*: the failing call returns the error instead of a listing,
the sibling loop propagates a recursive error without visiting the
remaining siblings, and `main` maps any such error to exit code 1 (the
warning to the diagnostic stream does happen, but nothing is resumed). -/
theorem C1_unreadable_aborts :
    (∀ (fs : Fs) (o : TreeOptions) (rootStr : String) (fuel : Nat)
        (path : List String) (depth : Nat) (ind : List Bool),
      fs path = none →
      traverseDir fs o rootStr (fuel + 1) path depth ind =
        .error "cannot read directory") ∧
    (∀ (fs : Fs) (o : TreeOptions) (rootStr : String)
        (recur : List String → Nat → List Bool →
          Except String (List String × Nat × Nat))
        (path : List String) (depth : Nat) (ind : List Bool)
        (e : RawEntry) (rest : List RawEntry) (msg : String),
      e.isDir = true → skipRecursion fs o path e depth = false →
      recur (path ++ [e.name]) (depth + 1) (ind ++ [rest.isEmpty]) =
        .error msg →
      traverseEntries fs o rootStr recur path depth ind (e :: rest) =
        .error msg) ∧
    (∀ (fs : Fs) (o : TreeOptions) (rootStr : String) (fuel : Nat)
        (msg : String),
      listFromFilesystem fs o rootStr fuel = .error msg →
      mainExitCode fs o rootStr fuel = 1) := by
  refine ⟨?_, ?_, ?_⟩
  · intro fs o rootStr fuel path depth ind h
    simp [traverseDir, h]
  · intro fs o rootStr recur path depth ind e rest msg hdir hskip hrec
    simp [traverseEntries, hdir, hskip, hrec]
  · intro fs o rootStr fuel msg h
    simp [mainExitCode, h]

/-- Witness for C1: the three clauses at the concrete unreadable
filesystem. -/
theorem C1_unreadable_aborts_witness :
    traverseDir unreadableFs {} "root" 1 ["dirA"] 1 [false] =
      .error "cannot read directory" ∧
    traverseEntries unreadableFs {} "root"
      (fun _ _ _ => .error "cannot read directory") [] 0 []
      [⟨"dirA", true, none, 0, false⟩, ⟨"dirB", true, none, 0, false⟩,
       ⟨"fileC", false, none, 0, false⟩] = .error "cannot read directory" ∧
    mainExitCode unreadableFs {} "root" 10 = 1 := by
  refine ⟨?_, ?_, ?_⟩
  · exact C1_unreadable_aborts.1 unreadableFs {} "root" 0 ["dirA"] 1 [false]
      (by decide)
  · exact C1_unreadable_aborts.2.1 unreadableFs {} "root"
      (fun _ _ _ => .error "cannot read directory") [] 0 []
      ⟨"dirA", true, none, 0, false⟩ _ _ rfl (by decide) rfl
  · exact C1_unreadable_aborts.2.2 unreadableFs {} "root" 10
      "cannot read directory" (by decide)

/-! ## Claim C5 — statistics invariant -/

/-- Counting lemma for the real-mode sibling loop: provided every recursive
subdirectory call satisfies the invariant, a successful loop yields stats
summing to its line count. -/
theorem traverseEntries_count (fs : Fs) (o : TreeOptions) (rootStr : String)
    (recur : List String → Nat → List Bool →
      Except String (List String × Nat × Nat))
    (hrec : ∀ p dep i lines dd ff, recur p dep i = .ok (lines, dd, ff) →
      dd + ff = lines.length)
    (path : List String) (depth : Nat) (ind : List Bool) :
    ∀ (l : List RawEntry) (lines : List String) (d f : Nat),
      traverseEntries fs o rootStr recur path depth ind l =
        .ok (lines, d, f) →
      d + f = lines.length := by
  intro l
  induction l with
  | nil =>
    intro lines d f h
    simp only [traverseEntries] at h
    injection h with h
    injection h with h1 h2
    injection h2 with h2 h3
    subst h1; subst h2; subst h3
    simp
  | cons e rest ih =>
    intro lines d f h
    simp only [traverseEntries] at h
    cases hdir : e.isDir with
    | true =>
      simp only [hdir, if_true] at h
      rcases hsub : (if skipRecursion fs o path e depth then
          (Except.ok ([], 0, 0) : Except String (List String × Nat × Nat))
        else recur (path ++ [e.name]) (depth + 1)
          (ind ++ [rest.isEmpty])) with msg | val
      · rw [hsub] at h; cases h
      · rw [hsub] at h
        rcases hrest : traverseEntries fs o rootStr recur path depth ind rest
          with msg | val2
        · rw [hrest] at h; cases h
        · rw [hrest] at h
          obtain ⟨lines1, d1, f1⟩ := val
          obtain ⟨lines2, d2, f2⟩ := val2
          injection h with h
          injection h with h1 h2
          injection h2 with h2 h3
          subst h1; subst h2; subst h3
          have hb : d1 + f1 = lines1.length := by
            by_cases hskip : skipRecursion fs o path e depth
            · rw [if_pos hskip] at hsub
              simp only [Except.ok.injEq, Prod.mk.injEq] at hsub
              obtain ⟨h1, h2, h3⟩ := hsub
              subst h1; subst h2; subst h3
              simp
            · rw [if_neg hskip] at hsub
              exact hrec _ _ _ _ _ _ hsub
          have hr : d2 + f2 = lines2.length := ih _ _ _ hrest
          simp only [List.length_cons, List.length_append]
          omega
    | false =>
      simp only [hdir, Bool.false_eq_true, if_false] at h
      rcases hrest : traverseEntries fs o rootStr recur path depth ind rest
        with msg | val2
      · rw [hrest] at h; cases h
      · rw [hrest] at h
        obtain ⟨lines2, d2, f2⟩ := val2
        injection h with h
        injection h with h1 h2
        injection h2 with h2 h3
        subst h1; subst h2; subst h3
        have hr : d2 + f2 = lines2.length := ih _ _ _ hrest
        simp only [List.length_cons]
        omega

/-- Counting lemma for `traverseDir`, by induction on the fuel. -/
theorem traverseDir_count (fs : Fs) (o : TreeOptions) (rootStr : String) :
    ∀ (fuel : Nat) (path : List String) (depth : Nat) (ind : List Bool)
      (lines : List String) (d f : Nat),
      traverseDir fs o rootStr fuel path depth ind = .ok (lines, d, f) →
      d + f = lines.length := by
  intro fuel
  induction fuel with
  | zero => intro path depth ind lines d f h; cases h
  | succ fuel ih =>
    intro path depth ind lines d f h
    simp only [traverseDir] at h
    rcases hfs : fs path with _ | raw
    · rw [hfs] at h; cases h
    · rw [hfs] at h
      exact traverseEntries_count fs o rootStr _
        (fun p dep i lines dd ff hcall => ih p dep i lines dd ff hcall)
        path depth ind _ _ _ _ h

/-- Counting lemma for the virtual-mode sibling loop. -/
theorem displayVirtualLoop_count (o : TreeOptions)
    (recur : String → List Bool → List String × Nat × Nat)
    (hrec : ∀ p i, (recur p i).2.1 + (recur p i).2.2 = (recur p i).1.length)
    (ind : List Bool) :
    ∀ l : List FileEntry,
      (displayVirtualLoop o recur ind l).2.1 +
        (displayVirtualLoop o recur ind l).2.2 =
      (displayVirtualLoop o recur ind l).1.length := by
  intro l
  induction l with
  | nil => simp [displayVirtualLoop]
  | cons e rest ih =>
    simp only [displayVirtualLoop]
    by_cases hskip : shouldSkipVirtualEntry e o
    · simp only [hskip, if_true]
      exact ih
    · simp only [hskip, Bool.false_eq_true, if_false]
      cases hdir : e.is_dir with
      | true =>
        simp only [hdir, if_true, List.length_cons, List.length_append]
        have := hrec e.path (ind ++ [!rest.isEmpty])
        omega
      | false =>
        simp only [hdir, Bool.false_eq_true, if_false, List.length_cons]
        omega

/-- Counting lemma for `displayVirtualSubtree`, by induction on the fuel. -/
theorem displayVirtualSubtree_count (allEntries : List FileEntry)
    (o : TreeOptions) :
    ∀ (fuel : Nat) (siblings : List FileEntry) (ind : List Bool)
      (depth : Nat),
      (displayVirtualSubtree allEntries o fuel siblings ind depth).2.1 +
        (displayVirtualSubtree allEntries o fuel siblings ind depth).2.2 =
      (displayVirtualSubtree allEntries o fuel siblings ind depth).1.length := by
  intro fuel
  induction fuel with
  | zero => intro siblings ind depth; simp [displayVirtualSubtree]
  | succ fuel ih =>
    intro siblings ind depth
    simp only [displayVirtualSubtree]
    split
    · simp
    · exact displayVirtualLoop_count o _
        (fun p i => ih (sortVirtualEntries o (childrenOf allEntries p)) i
          (depth + 1))
        ind siblings

/-- **C5**: in both modes, the stats accumulator of a completed run sums to
the number of emitted entry lines (the traversal's own lines — the root and
summary lines are appended outside the counted traversal). Each filtered-in
entry contributes exactly one line and one count, including directories
listed but not descended into because of `level` or `filelimit`. -/
theorem C5_stats_invariant :
    (∀ (fs : Fs) (o : TreeOptions) (rootStr : String) (fuel : Nat)
        (path : List String) (depth : Nat) (ind : List Bool)
        (lines : List String) (d f : Nat),
      traverseDir fs o rootStr fuel path depth ind = .ok (lines, d, f) →
      d + f = lines.length) ∧
    (∀ (allEntries : List FileEntry) (o : TreeOptions) (fuel : Nat)
        (siblings : List FileEntry) (ind : List Bool) (depth : Nat),
      (displayVirtualSubtree allEntries o fuel siblings ind depth).2.1 +
        (displayVirtualSubtree allEntries o fuel siblings ind depth).2.2 =
      (displayVirtualSubtree allEntries o fuel siblings ind depth).1.length) :=
  ⟨fun fs o rootStr fuel path depth ind lines d f h =>
    traverseDir_count fs o rootStr fuel path depth ind lines d f h,
   fun allEntries o fuel siblings ind depth =>
    displayVirtualSubtree_count allEntries o fuel siblings ind depth⟩

/-- Witness for C5: the real-mode clause at the scenario filesystem (3
directories + 3 files = 6 entry lines), the virtual clause at a concrete
listing. -/
theorem C5_stats_invariant_witness :
    (3 : Nat) + 3 =
      (["├── dir1", "│   ├── dir1_1", "│   └── file2.txt", "├── dir2",
        "│   └── file3.txt", "└── file1.txt"] : List String).length ∧
    (displayVirtualSubtree listingLastHidden {} 5
        (sortVirtualEntries {} (childrenOf listingLastHidden "")) [] 0).2.1 +
      (displayVirtualSubtree listingLastHidden {} 5
        (sortVirtualEntries {} (childrenOf listingLastHidden "")) [] 0).2.2 =
      (displayVirtualSubtree listingLastHidden {} 5
        (sortVirtualEntries {} (childrenOf listingLastHidden "")) []
        0).1.length :=
  ⟨C5_stats_invariant.1 scenarioFs {} "root" 10 [] 0 [] _ 3 3 (by decide),
   C5_stats_invariant.2 listingLastHidden {} 5 _ [] 0⟩

/-! ## Claim C4 — path normalization before insertion (spec-modelled) -/

theorem slashifyChar_ne_backslash (c : Char) : slashifyChar c ≠ '\\' := by
  unfold slashifyChar
  split
  · decide
  · rename_i h
    simpa using h

theorem stripDotSlash_subset {cs : List Char} {c : Char}
    (h : c ∈ stripDotSlash cs) : c ∈ cs := by
  unfold stripDotSlash at h
  split at h
  · simp [h]
  · exact h

theorem stripDrive_subset {cs : List Char} {c : Char}
    (h : c ∈ stripDrive cs) : c ∈ cs := by
  unfold stripDrive at h
  split at h
  · split at h
    · rcases List.mem_cons.mp h with h | h
      · simp [h]
      · simp [h]
    · exact h
  · exact h

theorem normalize_path_no_backslash (s : String) :
    '\\' ∉ (normalize_path s).data := by
  intro hmem
  unfold normalize_path at hmem
  have h1 : '\\' ∈ s.data.map slashifyChar :=
    stripDotSlash_subset (stripDrive_subset hmem)
  obtain ⟨a, _, ha⟩ := List.mem_map.mp h1
  exact slashifyChar_ne_backslash a ha

theorem splitSlash_ne_nil (cs : List Char) : splitSlash cs ≠ [] := by
  cases cs with
  | nil => simp [splitSlash]
  | cons c rest =>
    rcases h : splitSlash rest with _ | ⟨seg, segs⟩
    · simp [splitSlash, h]
    · simp only [splitSlash, h]
      split <;> simp

theorem splitSlash_mem {cs : List Char} {seg : List Char} {c : Char}
    (hseg : seg ∈ splitSlash cs) (hc : c ∈ seg) : c ∈ cs := by
  induction cs generalizing seg with
  | nil =>
    simp only [splitSlash, List.mem_singleton] at hseg
    subst hseg
    cases hc
  | cons x rest ih =>
    rcases h : splitSlash rest with _ | ⟨seg0, segs⟩
    · exact absurd h (splitSlash_ne_nil rest)
    · simp only [splitSlash, h] at hseg
      by_cases hx : (x == '/') = true
      · rw [if_pos hx] at hseg
        rcases List.mem_cons.mp hseg with heq | hmem
        · subst heq; cases hc
        · have hs : seg ∈ splitSlash rest := by rw [h]; exact hmem
          exact List.mem_cons_of_mem x (ih hs hc)
      · rw [if_neg hx] at hseg
        rcases List.mem_cons.mp hseg with heq | hmem
        · subst heq
          rcases List.mem_cons.mp hc with heq | hmem2
          · subst heq; exact List.mem_cons_self _ _
          · have hs : seg0 ∈ splitSlash rest := by
              rw [h]; exact List.mem_cons_self _ _
            exact List.mem_cons_of_mem x (ih hs hmem2)
        · have hs : seg ∈ splitSlash rest := by
            rw [h]; exact List.mem_cons_of_mem _ hmem
          exact List.mem_cons_of_mem x (ih hs hc)

theorem joinSlashC_mem {l : List (List Char)} {c : Char}
    (h : c ∈ joinSlashC l) : c = '/' ∨ ∃ seg ∈ l, c ∈ seg := by
  induction l with
  | nil => cases h
  | cons seg rest ih =>
    cases rest with
    | nil =>
      right
      exact ⟨seg, List.mem_cons_self seg [], h⟩
    | cons seg2 rest2 =>
      simp only [joinSlashC] at h
      rcases List.mem_append.mp h with h | h
      · right; exact ⟨seg, List.mem_cons_self _ _, h⟩
      · rcases List.mem_cons.mp h with h | h
        · left; exact h
        · rcases ih h with h | ⟨s, hs, hcs⟩
          · left; exact h
          · right; exact ⟨s, List.mem_cons_of_mem seg hs, hcs⟩

theorem mapInsert_mem {m : List (String × FileEntry)} {k : String}
    {v : FileEntry} {kv : String × FileEntry}
    (h : kv ∈ mapInsert m k v) : kv ∈ m ∨ kv = (k, v) := by
  induction m with
  | nil => right; simpa [mapInsert] using h
  | cons kv0 rest ih =>
    unfold mapInsert at h
    split at h
    · rcases List.mem_cons.mp h with heq | hmem
      · right; exact heq
      · left; exact List.mem_cons_of_mem kv0 hmem
    · rcases List.mem_cons.mp h with heq | hmem
      · left; simp [heq]
      · rcases ih hmem with hm | he
        · left; exact List.mem_cons_of_mem kv0 hm
        · right; exact he

theorem mapInsertAbsent_mem {m : List (String × FileEntry)} {k : String}
    {v : FileEntry} {kv : String × FileEntry}
    (h : kv ∈ mapInsertAbsent m k v) : kv ∈ m ∨ kv = (k, v) := by
  induction m with
  | nil => right; simpa [mapInsertAbsent] using h
  | cons kv0 rest ih =>
    unfold mapInsertAbsent at h
    split at h
    · left; exact h
    · rcases List.mem_cons.mp h with heq | hmem
      · left; simp [heq]
      · rcases ih hmem with hm | he
        · left; exact List.mem_cons_of_mem kv0 hm
        · right; exact he

/-- A single synthesis step adds at most one directory binding, whose path
characters come from the cleaned path or are `/`. -/
theorem ancestorStep_mem {cs : List Char} {m : List (String × FileEntry)}
    {i : Nat} {kv : String × FileEntry}
    (h : kv ∈ ancestorStep cs m i) :
    kv ∈ m ∨ ∃ p : String, kv = (p, ⟨p, true, none⟩) ∧
      ∀ c ∈ p.data, c = '/' ∨ c ∈ cs := by
  unfold ancestorStep at h
  by_cases hi : (i == 0) = true
  · rw [if_pos hi] at h; left; exact h
  · rw [if_neg hi] at h
    by_cases hp : (String.mk (joinSlashC ((splitSlash cs).take i)) ==
        "") = true
    · simp only [hp, if_true] at h; left; exact h
    · simp only [hp, Bool.false_eq_true, if_false] at h
      rcases mapInsertAbsent_mem h with h | heq
      · left; exact h
      · right
        refine ⟨String.mk (joinSlashC ((splitSlash cs).take i)), heq, ?_⟩
        intro c hc
        rcases joinSlashC_mem hc with hc | ⟨seg, hseg, hcs⟩
        · left; exact hc
        · right
          exact splitSlash_mem (List.take_subset i _ hseg) hcs

/-- Every binding added by ancestor synthesis has a path whose characters
come from the cleaned path or are `/`, and its value is a directory entry
at that path. -/
theorem insertAncestors_chars {m : List (String × FileEntry)}
    {cs : List Char} {kv : String × FileEntry}
    (h : kv ∈ insertAncestors m cs) :
    kv ∈ m ∨ ∃ p : String, kv = (p, ⟨p, true, none⟩) ∧
      ∀ c ∈ p.data, c = '/' ∨ c ∈ cs := by
  unfold insertAncestors at h
  generalize List.range (splitSlash cs).length = is at h
  induction is generalizing m with
  | nil => left; exact h
  | cons i rest ih =>
    simp only [List.foldl_cons] at h
    rcases ih h with hmem | hex
    · exact ancestorStep_mem hmem
    · right; exact hex

/-- Every entry the normalizing simple-path parser produces — explicit or
synthesized — has a backslash-free path. -/
theorem parseSimplePathsN_no_backslash (lines : List String)
    (e : FileEntry) (he : e ∈ parseSimplePathsN lines) :
    '\\' ∉ e.path.data := by
  have key : ∀ (ls : List String) (m : List (String × FileEntry)),
      (∀ kv ∈ m, '\\' ∉ kv.2.path.data) →
      ∀ kv ∈ ls.foldl parseSimpleLineN m, '\\' ∉ kv.2.path.data := by
    intro ls
    induction ls with
    | nil => intro m hm kv hkv; exact hm kv hkv
    | cons line rest ih =>
      intro m hm kv hkv
      refine ih (parseSimpleLineN m line) ?_ kv hkv
      intro kv0 hkv0
      simp only [parseSimpleLineN] at hkv0
      split at hkv0
      · exact hm kv0 hkv0
      · rcases insertAncestors_chars hkv0 with hkv0 | ⟨p, heq, hchars⟩
        · rcases mapInsert_mem hkv0 with hkv0 | heq
          · exact hm kv0 hkv0
          · rw [heq]
            exact normalize_path_no_backslash (simpleLineClean line).1
        · rw [heq]
          intro habs
          rcases hchars '\\' habs with h | h
          · cases h
          · exact normalize_path_no_backslash (simpleLineClean line).1 h
  unfold parseSimplePathsN at he
  obtain ⟨kv, hkv, heq⟩ := List.mem_map.mp he
  have := key lines [] (by intro kv h; cases h) kv hkv
  rw [← heq]
  exact this

/-- **C4** (spec-modelled, the `normalize_path` helper being absent from
the source snapshot): the normalization applied to every parsed path before
insertion replaces backslashes by `/`, strips one leading `./`, and rewrites
a letter-colon drive prefix `X:` to `X` — shown on the repo's own test
vectors, together with: no normalized path contains a backslash, the `./`
and `X:` rewrites on their matching shapes, and no entry of the normalizing
simple-path parser (explicit or synthesized ancestor) carries a
backslash. -/
theorem C4_normalization :
    (normalize_path "src\\main.rs" = "src/main.rs" ∧
     normalize_path "./file.txt" = "file.txt" ∧
     normalize_path "C:/path/file.txt" = "C/path/file.txt" ∧
     normalize_path "D:\\Users\\test" = "D/Users/test" ∧
     normalize_path "C_file.txt" = "C_file.txt") ∧
    (∀ s : String, '\\' ∉ (normalize_path s).data) ∧
    (∀ cs : List Char, stripDotSlash ('.' :: '/' :: cs) = cs) ∧
    (∀ (c : Char) (cs : List Char), c.isAlpha = true →
      stripDrive (c :: ':' :: cs) = c :: cs) ∧
    (∀ (lines : List String) (e : FileEntry),
      e ∈ parseSimplePathsN lines → '\\' ∉ e.path.data) := by
  refine ⟨by decide, normalize_path_no_backslash, fun cs => rfl, ?_,
    parseSimplePathsN_no_backslash⟩
  intro c cs hc
  unfold stripDrive
  simp [hc]

/-! ## Claim C6 — round trip of the simple-path parser -/

theorem mapLookup_nil (p : String) : mapLookup [] p = none := rfl

theorem mapLookup_cons (kv : String × FileEntry)
    (m : List (String × FileEntry)) (p : String) :
    mapLookup (kv :: m) p =
      if kv.1 = p then some kv.2 else mapLookup m p := by
  unfold mapLookup
  by_cases h : kv.1 = p
  · rw [List.find?_cons_of_pos _ (by simpa using h), if_pos h]
    simp
  · rw [List.find?_cons_of_neg _ (by simpa using h), if_neg h]

theorem mapLookup_mapInsert (m : List (String × FileEntry)) (k p : String)
    (v : FileEntry) :
    mapLookup (mapInsert m k v) p =
      if p = k then some v else mapLookup m p := by
  induction m with
  | nil =>
    by_cases h : p = k
    · subst h; simp [mapInsert, mapLookup_cons]
    · have hkp : ¬ k = p := fun hh => h hh.symm
      simp [mapInsert, mapLookup_cons, h, hkp]
  | cons kv0 rest ih =>
    unfold mapInsert
    by_cases h0 : (kv0.1 == k) = true
    · have hk : kv0.1 = k := by simpa using h0
      rw [if_pos h0]
      by_cases hpk : p = k
      · subst hpk; simp [mapLookup_cons, hk]
      · have hkp : ¬ k = p := fun hh => hpk hh.symm
        simp [mapLookup_cons, hpk, hkp, hk]
    · have hk : ¬ kv0.1 = k := by simpa using h0
      rw [if_neg h0]
      by_cases hp0 : kv0.1 = p
      · have hpk : ¬ p = k := fun hh => hk (hp0.symm ▸ hh)
        simp [mapLookup_cons, hp0, hpk]
      · simp [mapLookup_cons, hp0, ih]

theorem mapLookup_mapInsertAbsent (m : List (String × FileEntry))
    (k p : String) (v : FileEntry) :
    mapLookup (mapInsertAbsent m k v) p =
      if p = k ∧ mapLookup m k = none then some v else mapLookup m p := by
  induction m with
  | nil =>
    by_cases h : p = k
    · subst h; simp [mapInsertAbsent, mapLookup_cons, mapLookup_nil]
    · have hkp : ¬ k = p := fun hh => h hh.symm
      simp [mapInsertAbsent, mapLookup_cons, mapLookup_nil, h, hkp]
  | cons kv0 rest ih =>
    unfold mapInsertAbsent
    by_cases h0 : (kv0.1 == k) = true
    · have hk : kv0.1 = k := by simpa using h0
      rw [if_pos h0]
      have hsome : mapLookup (kv0 :: rest) k = some kv0.2 := by
        rw [mapLookup_cons, if_pos hk]
      rw [if_neg (fun hh => by
        rw [hsome] at hh
        exact Option.noConfusion hh.2)]
    · have hk : ¬ kv0.1 = k := by simpa using h0
      rw [if_neg h0]
      by_cases hp0 : kv0.1 = p
      · have hpk : ¬ p = k := fun hh => hk (hp0.symm ▸ hh)
        simp [mapLookup_cons, hp0, hpk]
      · simp [mapLookup_cons, hp0, ih, hk]

/-- Net effect of the synthesis fold on a lookup: a path acquires the
synthesized directory value exactly when it was absent and is among the
(nonzero-index, non-empty) ancestor paths of the fold. -/
theorem foldl_ancestorStep_lookup (cs : List Char) :
    ∀ (is : List Nat) (m : List (String × FileEntry)) (p : String),
      mapLookup (is.foldl (ancestorStep cs) m) p =
        if mapLookup m p = none ∧ p ∈ ancestorPathsIdx cs is then
          some ⟨p, true, none⟩
        else mapLookup m p := by
  intro is
  induction is with
  | nil =>
    intro m p
    simp [ancestorPathsIdx]
  | cons i rest ih =>
    intro m p
    rw [List.foldl_cons, ih]
    by_cases hi : (i == 0) = true
    · have hstep : ancestorStep cs m i = m := by
        unfold ancestorStep; rw [if_pos hi]
      have hpaths : ancestorPathsIdx cs (i :: rest) =
          ancestorPathsIdx cs rest := by
        unfold ancestorPathsIdx
        rw [List.filter_cons_of_neg (by simpa using hi)]
      rw [hstep, hpaths]
    · have hins : ancestorStep cs m i =
          (if String.mk (joinSlashC ((splitSlash cs).take i)) == "" then m
           else mapInsertAbsent m (String.mk (joinSlashC ((splitSlash cs).take i)))
             ⟨String.mk (joinSlashC ((splitSlash cs).take i)), true, none⟩) := by
        unfold ancestorStep; rw [if_neg hi]
      by_cases hq : (String.mk (joinSlashC ((splitSlash cs).take i)) == "") = true
      · rw [hins, if_pos hq]
        have hpaths : ancestorPathsIdx cs (i :: rest) =
            ancestorPathsIdx cs rest := by
          unfold ancestorPathsIdx
          rw [List.filter_cons_of_pos (by simpa using hi), List.map_cons,
            List.filter_cons_of_neg (by simpa using hq)]
        rw [hpaths]
      · rw [hins, if_neg hq]
        have hpaths : ancestorPathsIdx cs (i :: rest) =
            String.mk (joinSlashC ((splitSlash cs).take i)) ::
              ancestorPathsIdx cs rest := by
          unfold ancestorPathsIdx
          rw [List.filter_cons_of_pos (by simpa using hi), List.map_cons,
            List.filter_cons_of_pos (by simpa using hq)]
        rw [hpaths, mapLookup_mapInsertAbsent]
        by_cases hm : mapLookup m p = none
        · by_cases hpq : p = String.mk (joinSlashC ((splitSlash cs).take i))
          · rw [← hpq]
            simp [hm]
          · by_cases hrest : p ∈ ancestorPathsIdx cs rest
            · simp [hm, hpq, hrest]
            · simp [hm, hpq, hrest]
        · have h1 : ¬ (p = String.mk (joinSlashC ((splitSlash cs).take i)) ∧
              mapLookup m (String.mk (joinSlashC ((splitSlash cs).take i))) =
                none) := fun hh => hm (hh.1 ▸ hh.2)
          simp [h1, hm]

/-- Keys reachable after `mapInsert`: an old key or the inserted one. -/
theorem mapInsert_keys_mem {m : List (String × FileEntry)} {k q : String}
    {v : FileEntry} (h : q ∈ (mapInsert m k v).map Prod.fst) :
    q ∈ m.map Prod.fst ∨ q = k := by
  obtain ⟨kv, hkv, heq⟩ := List.mem_map.mp h
  rcases mapInsert_mem hkv with hm | he
  · left; exact heq ▸ List.mem_map_of_mem Prod.fst hm
  · right; rw [← heq, he]

theorem mapInsertAbsent_keys_mem {m : List (String × FileEntry)}
    {k q : String} {v : FileEntry}
    (h : q ∈ (mapInsertAbsent m k v).map Prod.fst) :
    q ∈ m.map Prod.fst ∨ q = k := by
  obtain ⟨kv, hkv, heq⟩ := List.mem_map.mp h
  rcases mapInsertAbsent_mem hkv with hm | he
  · left; exact heq ▸ List.mem_map_of_mem Prod.fst hm
  · right; rw [← heq, he]

theorem mapInsert_keys_nodup {m : List (String × FileEntry)} (k : String)
    (v : FileEntry) (h : (m.map Prod.fst).Nodup) :
    ((mapInsert m k v).map Prod.fst).Nodup := by
  induction m with
  | nil => simp [mapInsert]
  | cons kv0 rest ih =>
    unfold mapInsert
    simp only [List.map_cons, List.nodup_cons] at h
    by_cases h0 : (kv0.1 == k) = true
    · rw [if_pos h0]
      have hk : kv0.1 = k := by simpa using h0
      simp only [List.map_cons, List.nodup_cons]
      exact ⟨hk ▸ h.1, h.2⟩
    · rw [if_neg h0]
      have hk : ¬ kv0.1 = k := by simpa using h0
      simp only [List.map_cons, List.nodup_cons]
      refine ⟨?_, ih h.2⟩
      intro hmem
      rcases mapInsert_keys_mem hmem with hm | he
      · exact h.1 hm
      · exact hk he

theorem mapInsertAbsent_keys_nodup {m : List (String × FileEntry)}
    (k : String) (v : FileEntry) (h : (m.map Prod.fst).Nodup) :
    ((mapInsertAbsent m k v).map Prod.fst).Nodup := by
  induction m with
  | nil => simp [mapInsertAbsent]
  | cons kv0 rest ih =>
    unfold mapInsertAbsent
    simp only [List.map_cons, List.nodup_cons] at h
    by_cases h0 : (kv0.1 == k) = true
    · rw [if_pos h0]
      simp only [List.map_cons, List.nodup_cons]
      exact ⟨h.1, h.2⟩
    · rw [if_neg h0]
      have hk : ¬ kv0.1 = k := by simpa using h0
      simp only [List.map_cons, List.nodup_cons]
      refine ⟨?_, ih h.2⟩
      intro hmem
      rcases mapInsertAbsent_keys_mem hmem with hm | he
      · exact h.1 hm
      · exact hk he

theorem insertAncestors_keys_nodup {m : List (String × FileEntry)}
    (cs : List Char) (h : (m.map Prod.fst).Nodup) :
    ((insertAncestors m cs).map Prod.fst).Nodup := by
  unfold insertAncestors
  generalize List.range (splitSlash cs).length = is
  induction is generalizing m with
  | nil => exact h
  | cons i rest ih =>
    rw [List.foldl_cons]
    refine ih ?_
    unfold ancestorStep
    by_cases hi : (i == 0) = true
    · rw [if_pos hi]; exact h
    · rw [if_neg hi]
      by_cases hq : (String.mk (joinSlashC ((splitSlash cs).take i)) == "") =
          true
      · simp only [hq, if_true]; exact h
      · simp only [hq, Bool.false_eq_true, if_false]
        exact mapInsertAbsent_keys_nodup _ _ h

/-- The lookup view of one (non-empty) parsed line: the explicit path maps
to the new entry; any other path gains the synthesized directory value
exactly when it was absent and is a proper ancestor of the cleaned path. -/
theorem parseSimpleLine_lookup (m : List (String × FileEntry)) (l : String)
    (p : String) (hc : ¬ ((simpleLineClean l).1 == "") = true) :
    mapLookup (parseSimpleLine m l) p =
      if p = (simpleLineClean l).1 then
        some ⟨(simpleLineClean l).1, (simpleLineClean l).2, none⟩
      else if mapLookup m p = none ∧
          p ∈ properAncestorsOf (simpleLineClean l).1 then
        some ⟨p, true, none⟩
      else mapLookup m p := by
  simp only [parseSimpleLine]
  rw [if_neg hc]
  unfold insertAncestors
  rw [foldl_ancestorStep_lookup, mapLookup_mapInsert]
  by_cases hpc : p = (simpleLineClean l).1
  · rw [if_pos hpc, if_pos hpc]
    rw [if_neg (fun hh => Option.noConfusion hh.1)]
  · rw [if_neg hpc, if_neg hpc]
    rfl

theorem lastExplicit_append (ls : List String) (l : String) (p : String) :
    lastExplicit (ls ++ [l]) p =
      if ((simpleLineClean l).1 == p && !((simpleLineClean l).1 == ""))
          = true then
        some ⟨(simpleLineClean l).1, (simpleLineClean l).2, none⟩
      else lastExplicit ls p := by
  unfold lastExplicit
  rw [List.foldl_append, List.foldl_cons, List.foldl_nil]

theorem mem_allAncestorsOf_append (ls : List String) (l : String)
    (p : String) :
    p ∈ allAncestorsOf (ls ++ [l]) ↔
      p ∈ allAncestorsOf ls ∨
        (¬ ((simpleLineClean l).1 == "") = true ∧
          p ∈ properAncestorsOf (simpleLineClean l).1) := by
  unfold allAncestorsOf
  rw [List.flatMap_append]
  simp only [List.flatMap_cons, List.flatMap_nil, List.append_nil,
    List.mem_append]
  by_cases hce : ((simpleLineClean l).1 == "") = true
  · simp [hce]
  · simp [hce]

/-- The characterization of the accumulated parser map: keys are distinct,
each value sits at its own path, and a lookup returns the last explicit
entry at that path, else the synthesized directory when the path is a
proper ancestor of some parsed line, else nothing. -/
theorem parseSimplePathsMap_spec (lines : List String) :
    ((parseSimplePathsMap lines).map Prod.fst).Nodup ∧
    (∀ kv ∈ parseSimplePathsMap lines, kv.2.path = kv.1) ∧
    (∀ p : String,
      mapLookup (parseSimplePathsMap lines) p =
        match lastExplicit lines p with
        | some e => some e
        | none =>
          if p ∈ allAncestorsOf lines then some ⟨p, true, none⟩
          else none) := by
  induction lines using List.reverseRecOn with
  | nil =>
    refine ⟨by simp [parseSimplePathsMap], by simp [parseSimplePathsMap], ?_⟩
    intro p
    simp [parseSimplePathsMap, lastExplicit, allAncestorsOf, mapLookup_nil]
  | append_singleton ls l ih =>
    obtain ⟨ihnd, ihval, ihlk⟩ := ih
    have hM : parseSimplePathsMap (ls ++ [l]) =
        parseSimpleLine (parseSimplePathsMap ls) l := by
      unfold parseSimplePathsMap
      rw [List.foldl_append, List.foldl_cons, List.foldl_nil]
    by_cases hce : ((simpleLineClean l).1 == "") = true
    · have hM' : parseSimplePathsMap (ls ++ [l]) = parseSimplePathsMap ls := by
        rw [hM]
        simp only [parseSimpleLine]
        rw [if_pos hce]
      refine ⟨hM' ▸ ihnd, hM' ▸ ihval, ?_⟩
      intro p
      rw [hM', lastExplicit_append,
        if_neg (by simp [hce] : ¬ ((simpleLineClean l).1 == p &&
          !((simpleLineClean l).1 == "")) = true), ihlk p]
      rcases hle : lastExplicit ls p with _ | e
      · simp only []
        by_cases hanc : p ∈ allAncestorsOf ls
        · rw [if_pos hanc,
            if_pos ((mem_allAncestorsOf_append ls l p).mpr (Or.inl hanc))]
        · rw [if_neg hanc, if_neg (fun hh =>
            ((mem_allAncestorsOf_append ls l p).mp hh).elim hanc
              (fun hh2 => hh2.1 hce))]
      · rfl
    · refine ⟨?_, ?_, ?_⟩
      · rw [hM]
        simp only [parseSimpleLine]
        rw [if_neg hce]
        exact insertAncestors_keys_nodup _ (mapInsert_keys_nodup _ _ ihnd)
      · intro kv hkv
        rw [hM] at hkv
        simp only [parseSimpleLine] at hkv
        rw [if_neg hce] at hkv
        rcases insertAncestors_chars hkv with hkv | ⟨q, heq, _⟩
        · rcases mapInsert_mem hkv with hm | he
          · exact ihval kv hm
          · rw [he]
        · rw [heq]
      · intro p
        rw [hM, parseSimpleLine_lookup _ _ _ hce, lastExplicit_append]
        by_cases hpc : p = (simpleLineClean l).1
        · rw [if_pos hpc,
            if_pos (by simp [hce, hpc] : ((simpleLineClean l).1 == p &&
              !((simpleLineClean l).1 == "")) = true)]
        · rw [if_neg hpc,
            if_neg (by simp [hpc] ; intro hh ; exact absurd hh.symm hpc :
              ¬ ((simpleLineClean l).1 == p &&
                !((simpleLineClean l).1 == "")) = true),
            ihlk p]
          rcases hle : lastExplicit ls p with _ | e
          · simp only []
            by_cases hanc : p ∈ allAncestorsOf ls
            · rw [if_pos hanc]
              rw [if_neg (fun hh => Option.noConfusion hh.1),
                if_pos ((mem_allAncestorsOf_append ls l p).mpr
                  (Or.inl hanc))]
            · rw [if_neg hanc]
              by_cases hpa : p ∈ properAncestorsOf (simpleLineClean l).1
              · rw [if_pos ⟨rfl, hpa⟩,
                  if_pos ((mem_allAncestorsOf_append ls l p).mpr
                    (Or.inr ⟨hce, hpa⟩))]
              · rw [if_neg (fun hh => hpa hh.2),
                  if_neg (fun hh =>
                    ((mem_allAncestorsOf_append ls l p).mp hh).elim hanc
                      (fun hh2 => hpa hh2.2))]
          · rw [if_neg (fun hh => Option.noConfusion hh.1)]

/-- A last explicit entry exists exactly for the non-empty cleaned paths of
the input lines. -/
theorem lastExplicit_isSome_iff (lines : List String) (p : String) :
    (lastExplicit lines p).isSome = true ↔
      ∃ line ∈ lines, (simpleLineClean line).1 = p ∧ ¬ p = "" := by
  induction lines using List.reverseRecOn with
  | nil => simp [lastExplicit]
  | append_singleton ls l ih =>
    rw [lastExplicit_append]
    by_cases hcond : ((simpleLineClean l).1 == p &&
        !((simpleLineClean l).1 == "")) = true
    · rw [if_pos hcond]
      simp only [Bool.and_eq_true, beq_iff_eq, Bool.not_eq_eq_eq_not,
        Bool.not_true, beq_eq_false_iff_ne] at hcond
      constructor
      · intro _
        exact ⟨l, by simp, hcond.1, hcond.1 ▸ hcond.2⟩
      · intro _
        rfl
    · rw [if_neg hcond]
      simp only [Bool.and_eq_true, beq_iff_eq, Bool.not_eq_eq_eq_not,
        Bool.not_true, beq_eq_false_iff_ne, not_and] at hcond
      rw [ih]
      constructor
      · intro ⟨line, hmem, hh⟩
        exact ⟨line, by simp [hmem], hh⟩
      · intro ⟨line, hmem, hh⟩
        rcases List.mem_append.mp hmem with hm | hm
        · exact ⟨line, hm, hh⟩
        · rw [List.mem_singleton] at hm
          subst hm
          have hempty : (simpleLineClean line).1 = "" :=
            not_not.mp (hcond hh.1)
          exact absurd (hh.1 ▸ hempty) hh.2

/-- **C6**: the map built by `parse_simple_paths` has pairwise-distinct
paths; every entry sits at its own path; a lookup at `p` yields the *last*
explicitly parsed entry at `p` when one exists (last parse wins, and an
explicit entry is never overwritten by synthesis), else the synthesized
directory entry exactly when `p` is a proper prefix of some parsed path,
else nothing — so there is exactly one entry per distinct explicit path and
one synthesized directory per distinct proper prefix not explicitly
listed. -/
theorem C6_simple_paths_round_trip :
    ∀ lines : List String,
      ((parseSimplePathsMap lines).map Prod.fst).Nodup ∧
      (∀ kv ∈ parseSimplePathsMap lines, kv.2.path = kv.1) ∧
      (∀ p : String,
        mapLookup (parseSimplePathsMap lines) p =
          match lastExplicit lines p with
          | some e => some e
          | none =>
            if p ∈ allAncestorsOf lines then some ⟨p, true, none⟩
            else none) ∧
      (∀ p : String, (lastExplicit lines p).isSome = true ↔
        ∃ line ∈ lines, (simpleLineClean line).1 = p ∧ ¬ p = "") :=
  fun lines =>
    ⟨(parseSimplePathsMap_spec lines).1, (parseSimplePathsMap_spec lines).2.1,
     (parseSimplePathsMap_spec lines).2.2,
     fun p => lastExplicit_isSome_iff lines p⟩

/-- Witness for C6: the characterization at the listing
`["a", "a/b.txt", "a/"]` — the trailing explicit `a/` (a directory) wins
over both the earlier explicit file `a` and the synthesized ancestor. -/
theorem C6_simple_paths_round_trip_witness :
    ((parseSimplePathsMap ["a", "a/b.txt", "a/"]).map Prod.fst).Nodup ∧
    FileEntry.path ⟨"a/b.txt", false, none⟩ = "a/b.txt" ∧
    mapLookup (parseSimplePathsMap ["a", "a/b.txt", "a/"]) "a" =
      (match lastExplicit ["a", "a/b.txt", "a/"] "a" with
       | some e => some e
       | none =>
         if "a" ∈ allAncestorsOf ["a", "a/b.txt", "a/"] then
           some ⟨"a", true, none⟩
         else none) ∧
    ((lastExplicit ["a", "a/b.txt", "a/"] "a").isSome = true ↔
      ∃ line ∈ ["a", "a/b.txt", "a/"],
        (simpleLineClean line).1 = "a" ∧ ¬ "a" = "") :=
  ⟨(C6_simple_paths_round_trip ["a", "a/b.txt", "a/"]).1,
   (C6_simple_paths_round_trip ["a", "a/b.txt", "a/"]).2.1
     ("a/b.txt", ⟨"a/b.txt", false, none⟩) (by decide),
   (C6_simple_paths_round_trip ["a", "a/b.txt", "a/"]).2.2.1 "a",
   (C6_simple_paths_round_trip ["a", "a/b.txt", "a/"]).2.2.2 "a"⟩

/-! ## Claim C7 — deterministic output, total sibling ordering -/

theorem Ordering_then_swap (o₁ o₂ : Ordering) :
    (o₁.then o₂).swap = o₁.swap.then o₂.swap := by
  cases o₁ <;> rfl

theorem Ordering_then_eq {o₁ o₂ : Ordering} (h : o₁.then o₂ = .eq) :
    o₁ = .eq ∧ o₂ = .eq := by
  cases o₁ <;> simp_all [Ordering.then]

theorem natCmp_swap (a b : Nat) : natCmp b a = (natCmp a b).swap := by
  unfold natCmp
  rcases Nat.lt_trichotomy a b with h | h | h
  · rw [if_pos h, if_neg (by omega), if_neg (by omega)]
    rfl
  · subst h
    rw [if_neg (by omega), if_pos rfl]
    rfl
  · rw [if_pos h, if_neg (by omega), if_neg (by omega)]
    rfl

theorem natCmp_eq_iff {a b : Nat} : natCmp a b = .eq ↔ a = b := by
  unfold natCmp
  rcases Nat.lt_trichotomy a b with h | h | h
  · rw [if_pos h]
    constructor
    · intro hh; cases hh
    · intro hh; omega
  · subst h
    rw [if_neg (by omega), if_pos rfl]
    simp
  · rw [if_neg (by omega), if_neg (by omega)]
    constructor
    · intro hh; cases hh
    · intro hh; omega

theorem natCmp_ne_gt_iff {a b : Nat} : natCmp a b ≠ .gt ↔ a ≤ b := by
  unfold natCmp
  rcases Nat.lt_trichotomy a b with h | h | h
  · rw [if_pos h]
    constructor
    · intro _; omega
    · intro _ hh; cases hh
  · subst h
    rw [if_neg (by omega), if_pos rfl]
    constructor
    · intro _; omega
    · intro _ hh; cases hh
  · rw [if_neg (by omega), if_neg (by omega)]
    constructor
    · intro hh; exact absurd rfl hh
    · intro hh; exact absurd hh (by omega)

theorem natCmp_lt_iff {a b : Nat} : natCmp a b = .lt ↔ a < b := by
  unfold natCmp
  rcases Nat.lt_trichotomy a b with h | h | h
  · rw [if_pos h]
    simp [h]
  · subst h
    rw [if_neg (by omega), if_pos rfl]
    constructor
    · intro hh; cases hh
    · intro hh; omega
  · rw [if_neg (by omega), if_neg (by omega)]
    constructor
    · intro hh; cases hh
    · intro hh; omega

theorem charCmp_swap (a b : Char) : charCmp b a = (charCmp a b).swap := by
  unfold charCmp
  rcases lt_trichotomy a b with h | h | h
  · rw [if_pos h, if_neg (not_lt_of_lt h), if_neg (ne_of_gt h)]
    rfl
  · subst h
    rw [if_neg (lt_irrefl a), if_pos rfl]
    rfl
  · rw [if_pos h, if_neg (not_lt_of_lt h), if_neg (ne_of_gt h)]
    rfl

theorem charCmp_eq_iff {a b : Char} : charCmp a b = .eq ↔ a = b := by
  unfold charCmp
  rcases lt_trichotomy a b with h | h | h
  · rw [if_pos h]
    constructor
    · intro hh; cases hh
    · intro hh; exact absurd hh (ne_of_lt h)
  · subst h
    rw [if_neg (lt_irrefl a), if_pos rfl]
    simp
  · rw [if_neg (not_lt_of_lt h), if_neg (ne_of_gt h)]
    constructor
    · intro hh; cases hh
    · intro hh; exact absurd hh (ne_of_gt h)

theorem charCmp_lt_iff {a b : Char} : charCmp a b = .lt ↔ a < b := by
  unfold charCmp
  rcases lt_trichotomy a b with h | h | h
  · rw [if_pos h]
    simp [h]
  · subst h
    rw [if_neg (lt_irrefl a), if_pos rfl]
    constructor
    · intro hh; cases hh
    · intro hh; exact absurd hh (lt_irrefl a)
  · rw [if_neg (not_lt_of_lt h), if_neg (ne_of_gt h)]
    constructor
    · intro hh; cases hh
    · intro hh; exact absurd hh (not_lt_of_lt h)

theorem listCmp_eq_iff : ∀ {xs ys : List Char}, listCmp xs ys = .eq ↔ xs = ys := by
  intro xs
  induction xs with
  | nil =>
    intro ys
    cases ys with
    | nil => simp [listCmp]
    | cons y ys => simp [listCmp]
  | cons x xs ih =>
    intro ys
    cases ys with
    | nil => simp [listCmp]
    | cons y ys =>
      simp only [listCmp, List.cons.injEq]
      constructor
      · intro h
        obtain ⟨h1, h2⟩ := Ordering_then_eq h
        exact ⟨charCmp_eq_iff.mp h1, ih.mp h2⟩
      · intro ⟨h1, h2⟩
        subst h1; subst h2
        rw [charCmp_eq_iff.mpr rfl, ih.mpr rfl]
        rfl

theorem listCmp_swap : ∀ (xs ys : List Char),
    listCmp ys xs = (listCmp xs ys).swap := by
  intro xs
  induction xs with
  | nil =>
    intro ys
    cases ys <;> rfl
  | cons x xs ih =>
    intro ys
    cases ys with
    | nil => rfl
    | cons y ys =>
      simp only [listCmp]
      rw [Ordering_then_swap, ← charCmp_swap, ← ih]

theorem listCmp_le_trans : ∀ {xs ys zs : List Char},
    listCmp xs ys ≠ .gt → listCmp ys zs ≠ .gt → listCmp xs zs ≠ .gt := by
  intro xs
  induction xs with
  | nil =>
    intro ys zs _ _
    cases zs <;> simp [listCmp]
  | cons x xs ih =>
    intro ys zs h1 h2
    cases ys with
    | nil => exact absurd rfl h1
    | cons y ys =>
      cases zs with
      | nil => exact absurd rfl h2
      | cons z zs =>
        simp only [listCmp] at h1 h2 ⊢
        rcases hxy : charCmp x y with _ | _ | _ <;> rw [hxy] at h1
        · rcases hyz : charCmp y z with _ | _ | _ <;> rw [hyz] at h2
          · have : charCmp x z = .lt :=
              charCmp_lt_iff.mpr
                (lt_trans (charCmp_lt_iff.mp hxy) (charCmp_lt_iff.mp hyz))
            rw [this]
            simp [Ordering.then]
          · have hy : y = z := charCmp_eq_iff.mp hyz
            rw [← hy, hxy]
            simp [Ordering.then]
          · exact absurd rfl h2
        · have hx : x = y := charCmp_eq_iff.mp hxy
          rcases hyz : charCmp y z with _ | _ | _ <;> rw [hyz] at h2
          · rw [hx, hyz]
            simp [Ordering.then]
          · have hy : y = z := charCmp_eq_iff.mp hyz
            rw [hx, hyz]
            simp only [Ordering.then]
            simp only [Ordering.then] at h1 h2
            exact ih h1 h2
          · exact absurd rfl h2
        · exact absurd rfl h1

theorem strCmp_swap (a b : String) : strCmp b a = (strCmp a b).swap :=
  listCmp_swap a.data b.data

theorem strCmp_eq_iff {a b : String} : strCmp a b = .eq ↔ a = b := by
  unfold strCmp
  rw [listCmp_eq_iff]
  constructor
  · intro h
    cases a; cases b
    exact congrArg String.mk h
  · intro h; rw [h]

theorem strCmp_le_trans {a b c : String}
    (h1 : strCmp a b ≠ .gt) (h2 : strCmp b c ≠ .gt) : strCmp a c ≠ .gt :=
  listCmp_le_trans h1 h2

theorem cmpEntries_swap (o : TreeOptions) (a b : RawEntry) :
    cmpEntries o b a = (cmpEntries o a b).swap := by
  unfold cmpEntries
  by_cases h : o.sort_by_time
  · simp only [h, if_true]
    rw [natCmp_swap, strCmp_swap, Ordering_then_swap]
  · simp only [h, Bool.false_eq_true, if_false]
    exact strCmp_swap a.name b.name

theorem cmpEntries_eq_names (o : TreeOptions) (a b : RawEntry)
    (h : cmpEntries o a b = .eq) : a.name = b.name := by
  unfold cmpEntries at h
  split at h
  · exact strCmp_eq_iff.mp (Ordering_then_eq h).2
  · exact strCmp_eq_iff.mp h

theorem cmpEntries_le_trans (o : TreeOptions) {a b c : RawEntry}
    (h1 : cmpEntries o a b ≠ .gt) (h2 : cmpEntries o b c ≠ .gt) :
    cmpEntries o a c ≠ .gt := by
  unfold cmpEntries at h1 h2 ⊢
  by_cases hst : o.sort_by_time
  · simp only [hst, if_true] at h1 h2 ⊢
    rcases hab : natCmp (a.mtime.getD 0) (b.mtime.getD 0) with _ | _ | _ <;>
      rw [hab] at h1
    · rcases hbc : natCmp (b.mtime.getD 0) (c.mtime.getD 0) with _ | _ | _ <;>
        rw [hbc] at h2
      · rw [natCmp_lt_iff.mpr
          (lt_trans (natCmp_lt_iff.mp hab) (natCmp_lt_iff.mp hbc))]
        simp [Ordering.then]
      · rw [← natCmp_eq_iff.mp hbc, hab]
        simp [Ordering.then]
      · exact absurd rfl h2
    · rcases hbc : natCmp (b.mtime.getD 0) (c.mtime.getD 0) with _ | _ | _ <;>
        rw [hbc] at h2
      · rw [natCmp_eq_iff.mp hab, hbc]
        simp [Ordering.then]
      · rw [natCmp_eq_iff.mp hab, hbc]
        simp only [Ordering.then] at h1 h2 ⊢
        exact strCmp_le_trans h1 h2
      · exact absurd rfl h2
    · exact absurd rfl h1
  · simp only [hst, Bool.false_eq_true, if_false] at h1 h2 ⊢
    exact strCmp_le_trans h1 h2

theorem virtualCmp_swap (o : TreeOptions) (a b : FileEntry) :
    virtualCmp o b a = (virtualCmp o a b).swap := by
  unfold virtualCmp
  by_cases h : o.dirs_first
  · simp only [h, if_true]
    cases ha : a.is_dir <;> cases hb : b.is_dir
    · exact strCmp_swap a.path b.path
    · rfl
    · rfl
    · exact strCmp_swap a.path b.path
  · simp only [h, Bool.false_eq_true, if_false]
    exact strCmp_swap a.path b.path

theorem virtualCmp_eq_paths (o : TreeOptions) (a b : FileEntry)
    (h : virtualCmp o a b = .eq) : a.path = b.path := by
  unfold virtualCmp at h
  split at h
  · cases ha : a.is_dir <;> cases hb : b.is_dir <;> rw [ha, hb] at h
    · exact strCmp_eq_iff.mp h
    · cases h
    · cases h
    · exact strCmp_eq_iff.mp h
  · exact strCmp_eq_iff.mp h

theorem virtualCmp_le_trans (o : TreeOptions) {a b c : FileEntry}
    (h1 : virtualCmp o a b ≠ .gt) (h2 : virtualCmp o b c ≠ .gt) :
    virtualCmp o a c ≠ .gt := by
  by_cases hd : o.dirs_first
  · have hv : ∀ x y : FileEntry, virtualCmp o x y =
        (if x.is_dir = true ∧ y.is_dir = false then Ordering.lt
         else if x.is_dir = false ∧ y.is_dir = true then Ordering.gt
         else strCmp x.path y.path) := by
      intro x y
      unfold virtualCmp
      rw [if_pos hd]
      cases hx : x.is_dir <;> cases hy : y.is_dir <;> simp_all
    rw [hv] at h1 h2
    rw [hv]
    cases ha : a.is_dir <;> cases hb : b.is_dir <;> cases hc : c.is_dir <;>
      simp_all <;> exact strCmp_le_trans h1 h2
  · unfold virtualCmp at h1 h2 ⊢
    simp only [hd, Bool.false_eq_true, if_false] at h1 h2 ⊢
    exact strCmp_le_trans h1 h2

/-- A sorted list is determined by its multiset when the sort keys are
pairwise distinct: two sorted permutations of each other are equal. This is
the totality content of the Sort Policy — the comparator leaves no freedom
once keys differ. -/
theorem sorted_perm_eq {α κ : Type} (cmp : α → α → Ordering) (key : α → κ)
    (hanti : ∀ a b, cmp a b ≠ .gt → cmp b a ≠ .gt → key a = key b) :
    ∀ (l₁ l₂ : List α), l₁.Perm l₂ →
      l₁.Sorted (fun a b => cmp a b ≠ .gt) →
      l₂.Sorted (fun a b => cmp a b ≠ .gt) →
      (l₁.map key).Nodup → l₁ = l₂ := by
  intro l₁
  induction l₁ with
  | nil =>
    intro l₂ hp _ _ _
    exact hp.nil_eq
  | cons a t₁ ih =>
    intro l₂ hp hs₁ hs₂ hnd
    cases l₂ with
    | nil => cases (List.Perm.eq_nil hp)
    | cons b t₂ =>
      by_cases hab : a = b
      · subst hab
        rw [ih t₂ hp.cons_inv hs₁.of_cons hs₂.of_cons
          (List.nodup_cons.mp (by simpa using hnd)).2]
      · exfalso
        have hamem : a ∈ t₂ := by
          rcases List.mem_cons.mp (hp.mem_iff.mp (List.mem_cons_self a t₁))
            with h | h
          · exact absurd h hab
          · exact h
        have hbmem : b ∈ t₁ := by
          rcases List.mem_cons.mp (hp.mem_iff.mpr (List.mem_cons_self b t₂))
            with h | h
          · exact absurd h.symm hab
          · exact h
        have h1 : cmp a b ≠ .gt := (List.sorted_cons.mp hs₁).1 b hbmem
        have h2 : cmp b a ≠ .gt := (List.sorted_cons.mp hs₂).1 a hamem
        have hkey : key a = key b := hanti a b h1 h2
        have hmem : key a ∈ t₁.map key :=
          hkey ▸ List.mem_map_of_mem key hbmem
        exact (List.nodup_cons.mp (by simpa using hnd)).1 hmem

/-- The Sort Policy is permutation-invariant on sibling groups with
distinct names: two `read_dir` orders of the same entries sort to the same
list (ties under time-sort are broken by name, so the order is total). -/
theorem sortEntries_perm_eq (o : TreeOptions) {l₁ l₂ : List RawEntry}
    (hperm : l₁.Perm l₂) (hnd : (l₁.map RawEntry.name).Nodup) :
    sortEntries o l₁ = sortEntries o l₂ := by
  letI : IsTotal RawEntry (leE o) := ⟨fun a b => by
    unfold leE
    by_cases h : cmpEntries o a b = .gt
    · right
      rw [cmpEntries_swap, h]
      intro hh; cases hh
    · left; exact h⟩
  letI : IsTrans RawEntry (leE o) := ⟨fun a b c h1 h2 => by
    unfold leE at h1 h2 ⊢
    exact cmpEntries_le_trans o h1 h2⟩
  have hanti : ∀ a b : RawEntry, cmpEntries o a b ≠ .gt →
      cmpEntries o b a ≠ .gt → a.name = b.name := by
    intro a b h1 h2
    have h2' : (cmpEntries o a b).swap ≠ .gt := by
      rw [← cmpEntries_swap]; exact h2
    have heq : cmpEntries o a b = .eq := by
      rcases hx : cmpEntries o a b with _ | _ | _
      · rw [hx] at h2'; exact absurd rfl h2'
      · rfl
      · exact absurd hx h1
    exact cmpEntries_eq_names o a b heq
  have key : ∀ (m₁ m₂ : List RawEntry), m₁.Perm m₂ →
      (m₁.map RawEntry.name).Nodup →
      m₁.insertionSort (leE o) = m₂.insertionSort (leE o) := by
    intro m₁ m₂ hp hnd2
    have hs₁ := List.sorted_insertionSort (leE o) m₁
    have hs₂ := List.sorted_insertionSort (leE o) m₂
    have hperm2 : (m₁.insertionSort (leE o)).Perm (m₂.insertionSort (leE o)) :=
      ((List.perm_insertionSort (leE o) m₁).trans hp).trans
        (List.perm_insertionSort (leE o) m₂).symm
    have hnd3 : ((m₁.insertionSort (leE o)).map RawEntry.name).Nodup :=
      hnd2.perm ((List.perm_insertionSort (leE o) m₁).map RawEntry.name).symm
    exact sorted_perm_eq (cmpEntries o) RawEntry.name hanti _ _ hperm2
      hs₁ hs₂ hnd3
  unfold sortEntries
  by_cases hd : o.dirs_first
  · simp only [hd, if_true]
    have hnd1 : ((l₁.filter (fun e => e.isDir)).map RawEntry.name).Nodup :=
      hnd.sublist ((List.filter_sublist l₁).map RawEntry.name)
    have hnd2 : ((l₁.filter (fun e => !e.isDir)).map RawEntry.name).Nodup :=
      hnd.sublist ((List.filter_sublist l₁).map RawEntry.name)
    rw [key _ _ (hperm.filter (fun e => e.isDir)) hnd1,
      key _ _ (hperm.filter (fun e => !e.isDir)) hnd2]
  · simp only [hd, Bool.false_eq_true, if_false]
    rw [key _ _ hperm hnd]

/-- The virtual per-bucket sort is permutation-invariant on buckets with
distinct paths. -/
theorem sortVirtualEntries_perm_eq (o : TreeOptions) {l₁ l₂ : List FileEntry}
    (hperm : l₁.Perm l₂) (hnd : (l₁.map FileEntry.path).Nodup) :
    sortVirtualEntries o l₁ = sortVirtualEntries o l₂ := by
  letI : IsTotal FileEntry (leV o) := ⟨fun a b => by
    unfold leV
    by_cases h : virtualCmp o a b = .gt
    · right
      rw [virtualCmp_swap, h]
      intro hh; cases hh
    · left; exact h⟩
  letI : IsTrans FileEntry (leV o) := ⟨fun a b c h1 h2 => by
    unfold leV at h1 h2 ⊢
    exact virtualCmp_le_trans o h1 h2⟩
  have hanti : ∀ a b : FileEntry, virtualCmp o a b ≠ .gt →
      virtualCmp o b a ≠ .gt → a.path = b.path := by
    intro a b h1 h2
    have h2' : (virtualCmp o a b).swap ≠ .gt := by
      rw [← virtualCmp_swap]; exact h2
    have heq : virtualCmp o a b = .eq := by
      rcases hx : virtualCmp o a b with _ | _ | _
      · rw [hx] at h2'; exact absurd rfl h2'
      · rfl
      · exact absurd hx h1
    exact virtualCmp_eq_paths o a b heq
  unfold sortVirtualEntries
  have hs₁ := List.sorted_insertionSort (leV o) l₁
  have hs₂ := List.sorted_insertionSort (leV o) l₂
  have hperm2 : (l₁.insertionSort (leV o)).Perm (l₂.insertionSort (leV o)) :=
    ((List.perm_insertionSort (leV o) l₁).trans hperm).trans
      (List.perm_insertionSort (leV o) l₂).symm
  have hnd3 : ((l₁.insertionSort (leV o)).map FileEntry.path).Nodup :=
    hnd.perm ((List.perm_insertionSort (leV o) l₁).map FileEntry.path).symm
  exact sorted_perm_eq (virtualCmp o) FileEntry.path hanti _ _ hperm2
    hs₁ hs₂ hnd3

/-- Two `read_dir` views of one fixed filesystem state: per path, both fail
or both yield the same entry set, possibly in different orders. -/
def FsEquiv (fs₁ fs₂ : Fs) : Prop :=
  ∀ p, (fs₁ p = none ∧ fs₂ p = none) ∨
    (∃ l₁ l₂, fs₁ p = some l₁ ∧ fs₂ p = some l₂ ∧ l₁.Perm l₂)

/-- Real directories list each name once. -/
def FsNodupNames (fs : Fs) : Prop :=
  ∀ p l, fs p = some l → (l.map RawEntry.name).Nodup

theorem skipRecursion_congr {fs₁ fs₂ : Fs} (hequiv : FsEquiv fs₁ fs₂)
    (o : TreeOptions) (path : List String) (e : RawEntry) (depth : Nat) :
    skipRecursion fs₁ o path e depth = skipRecursion fs₂ o path e depth := by
  unfold skipRecursion
  rcases hequiv (path ++ [e.name]) with ⟨h1, h2⟩ | ⟨l₁, l₂, h1, h2, hp⟩
  · rw [h1, h2]
  · rw [h1, h2]
    have hlen := hp.length_eq
    cases o.file_limit <;> simp [hlen]

theorem traverseEntries_congr {fs₁ fs₂ : Fs} (hequiv : FsEquiv fs₁ fs₂)
    (o : TreeOptions) (rootStr : String)
    (recur₁ recur₂ : List String → Nat → List Bool →
      Except String (List String × Nat × Nat))
    (hrec : ∀ p d i, recur₁ p d i = recur₂ p d i)
    (path : List String) (depth : Nat) (ind : List Bool) :
    ∀ l, traverseEntries fs₁ o rootStr recur₁ path depth ind l =
      traverseEntries fs₂ o rootStr recur₂ path depth ind l := by
  intro l
  induction l with
  | nil => rfl
  | cons e rest ih =>
    simp only [traverseEntries]
    rw [skipRecursion_congr hequiv o path e depth, hrec, ih]

theorem traverseDir_congr {fs₁ fs₂ : Fs} (hequiv : FsEquiv fs₁ fs₂)
    (hnd : FsNodupNames fs₁) (o : TreeOptions) (rootStr : String) :
    ∀ (fuel : Nat) (path : List String) (depth : Nat) (ind : List Bool),
      traverseDir fs₁ o rootStr fuel path depth ind =
        traverseDir fs₂ o rootStr fuel path depth ind := by
  intro fuel
  induction fuel with
  | zero => intro path depth ind; rfl
  | succ fuel ih =>
    intro path depth ind
    simp only [traverseDir]
    rcases hequiv path with ⟨h1, h2⟩ | ⟨l₁, l₂, h1, h2, hp⟩
    · rw [h1, h2]
    · rw [h1, h2]
      have hfilter : (l₁.filter (fun e => !shouldSkipEntry e o)).Perm
          (l₂.filter (fun e => !shouldSkipEntry e o)) :=
        hp.filter (fun e => !shouldSkipEntry e o)
      have hnd1 : ((l₁.filter (fun e => !shouldSkipEntry e o)).map
          RawEntry.name).Nodup :=
        (hnd path l₁ h1).sublist
          ((List.filter_sublist l₁).map RawEntry.name)
      show traverseEntries fs₁ o rootStr (traverseDir fs₁ o rootStr fuel)
          path depth ind
          (sortEntries o (l₁.filter (fun e => !shouldSkipEntry e o))) =
        traverseEntries fs₂ o rootStr (traverseDir fs₂ o rootStr fuel)
          path depth ind
          (sortEntries o (l₂.filter (fun e => !shouldSkipEntry e o)))
      rw [sortEntries_perm_eq o hfilter hnd1]
      exact traverseEntries_congr hequiv o rootStr _ _
        (fun p d i => ih p d i) path depth ind _

theorem displayVirtualLoop_congr (o : TreeOptions)
    (recur₁ recur₂ : String → List Bool → List String × Nat × Nat)
    (hrec : ∀ p i, recur₁ p i = recur₂ p i) (ind : List Bool) :
    ∀ l, displayVirtualLoop o recur₁ ind l =
      displayVirtualLoop o recur₂ ind l := by
  intro l
  induction l with
  | nil => rfl
  | cons e rest ih =>
    simp only [displayVirtualLoop]
    rw [hrec, ih]

theorem displayVirtualSubtree_congr {es₁ es₂ : List FileEntry}
    (hperm : es₁.Perm es₂) (hnd : (es₁.map FileEntry.path).Nodup)
    (o : TreeOptions) :
    ∀ (fuel : Nat) (siblings : List FileEntry) (ind : List Bool)
      (depth : Nat),
      displayVirtualSubtree es₁ o fuel siblings ind depth =
        displayVirtualSubtree es₂ o fuel siblings ind depth := by
  intro fuel
  induction fuel with
  | zero => intro siblings ind depth; rfl
  | succ fuel ih =>
    intro siblings ind depth
    simp only [displayVirtualSubtree]
    split
    · rfl
    · refine displayVirtualLoop_congr o _ _ ?_ ind siblings
      intro p i
      have hchild : (childrenOf es₁ p).Perm (childrenOf es₂ p) :=
        hperm.filter _
      have hndc : ((childrenOf es₁ p).map FileEntry.path).Nodup :=
        hnd.sublist ((List.filter_sublist es₁).map FileEntry.path)
      rw [sortVirtualEntries_perm_eq o hchild hndc]
      exact ih _ i (depth + 1)

theorem displayVirtualTree_congr {es₁ es₂ : List FileEntry}
    (hperm : es₁.Perm es₂) (hnd : (es₁.map FileEntry.path).Nodup)
    (o : TreeOptions) (fuel : Nat) (rootName : String) :
    displayVirtualTree es₁ o fuel rootName =
      displayVirtualTree es₂ o fuel rootName := by
  unfold displayVirtualTree
  have hchild : (childrenOf es₁ "").Perm (childrenOf es₂ "") :=
    hperm.filter _
  have hndc : ((childrenOf es₁ "").map FileEntry.path).Nodup :=
    hnd.sublist ((List.filter_sublist es₁).map FileEntry.path)
  rw [sortVirtualEntries_perm_eq o hchild hndc,
    displayVirtualSubtree_congr hperm hnd o]

/-- **C7**: for a fixed filesystem state (two `read_dir` enumeration orders
of the same entry sets, names distinct per directory) the real-mode output
is byte-identical; for a fixed parsed entry set (any `into_values` order,
paths distinct) the virtual-mode output is byte-identical; and the sibling
sort itself is permutation-invariant — the ordering is total, with ties
under time-sort broken by name. -/
theorem C7_output_deterministic :
    ∀ (o : TreeOptions) (rootStr : String) (fuel : Nat) (fs₁ fs₂ : Fs)
      (es₁ es₂ : List FileEntry) (l₁ l₂ : List RawEntry),
      FsEquiv fs₁ fs₂ → FsNodupNames fs₁ →
      es₁.Perm es₂ → (es₁.map FileEntry.path).Nodup →
      l₁.Perm l₂ → (l₁.map RawEntry.name).Nodup →
      listFromFilesystem fs₁ o rootStr fuel =
        listFromFilesystem fs₂ o rootStr fuel ∧
      displayVirtualTree es₁ o fuel rootStr =
        displayVirtualTree es₂ o fuel rootStr ∧
      sortEntries o l₁ = sortEntries o l₂ := by
  intro o rootStr fuel fs₁ fs₂ es₁ es₂ l₁ l₂ hfs hfsnd hes hesnd hl hlnd
  refine ⟨?_, displayVirtualTree_congr hes hesnd o fuel rootStr,
    sortEntries_perm_eq o hl hlnd⟩
  unfold listFromFilesystem
  rw [traverseDir_congr hfs hfsnd o rootStr fuel [] 0 []]

/-- Witness for C7: the congruence at the concrete permuted filesystem,
listing and sibling group. -/
theorem C7_output_deterministic_witness :
    listFromFilesystem permFsA { sort_by_time := true } "root" 4 =
      listFromFilesystem permFsB { sort_by_time := true } "root" 4 ∧
    displayVirtualTree [⟨"x", false, none⟩, ⟨"y", true, none⟩]
        { sort_by_time := true } 4 "root" =
      displayVirtualTree [⟨"y", true, none⟩, ⟨"x", false, none⟩]
        { sort_by_time := true } 4 "root" ∧
    sortEntries { sort_by_time := true }
        [⟨"b.txt", false, some 5, 1, false⟩, ⟨"a", true, some 9, 0, false⟩] =
      sortEntries { sort_by_time := true }
        [⟨"a", true, some 9, 0, false⟩, ⟨"b.txt", false, some 5, 1, false⟩] :=
  C7_output_deterministic { sort_by_time := true } "root" 4 permFsA permFsB
    [⟨"x", false, none⟩, ⟨"y", true, none⟩]
    [⟨"y", true, none⟩, ⟨"x", false, none⟩]
    [⟨"b.txt", false, some 5, 1, false⟩, ⟨"a", true, some 9, 0, false⟩]
    [⟨"a", true, some 9, 0, false⟩, ⟨"b.txt", false, some 5, 1, false⟩]
    (by
      intro p
      by_cases hp : p.isEmpty
      · exact Or.inr
          ⟨[⟨"b.txt", false, some 5, 1, false⟩,
            ⟨"a", true, some 9, 0, false⟩],
           [⟨"a", true, some 9, 0, false⟩,
            ⟨"b.txt", false, some 5, 1, false⟩],
           by simp [permFsA, hp], by simp [permFsB, hp], by decide⟩
      · exact Or.inr ⟨[], [], by simp [permFsA, hp], by simp [permFsB, hp],
          List.Perm.refl []⟩)
    (by
      intro p l h
      by_cases hp : p.isEmpty
      · simp only [permFsA, hp, if_true, Option.some.injEq] at h
        rw [← h]
        decide
      · simp only [permFsA, hp, Bool.false_eq_true, if_false,
          Option.some.injEq] at h
        rw [← h]
        decide)
    (by decide) (by decide) (by decide) (by decide)

/-- Witness for C4: the quantified clauses at concrete paths and a concrete
listing. -/
theorem C4_normalization_witness :
    '\\' ∉ (normalize_path "a\\b").data ∧
    stripDotSlash ('.' :: '/' :: ['x']) = ['x'] ∧
    stripDrive ('C' :: ':' :: ['x']) = 'C' :: ['x'] ∧
    '\\' ∉ (FileEntry.path ⟨"src/main.rs", false, none⟩).data :=
  ⟨C4_normalization.2.1 "a\\b",
   C4_normalization.2.2.1 ['x'],
   C4_normalization.2.2.2.1 'C' ['x'] (by decide),
   C4_normalization.2.2.2.2 ["src\\main.rs"] ⟨"src/main.rs", false, none⟩
     (by decide)⟩

end RustTree
